import Mathlib

/-!
SpookyHash (C port): shallow embedding of `spookyhash.c`.

The embedding follows `src/spookyhash.c` function by function.  Memory that the
C code reaches through a pointer is a `List Byte`; a pointer into it is a byte
offset.  Unsigned 64-bit arithmetic is arithmetic on `Nat` reduced modulo
`2 ^ 64`, and a narrowing to `uint8_t` is a reduction modulo `256`.  The host is
little-endian (`ALLOW_UNALIGNED_READS` is `1` in the source, so every word is
read in place).
-/

namespace SpookyHash

/-- One byte of memory (`uint8_t`). -/
abbrev Byte := Fin 256

/-- Narrowing store of an integer into a `uint8_t`. -/
def toByte (n : Nat) : Byte := ⟨n % 256, Nat.mod_lt n (by decide)⟩

/-- Modelled from the spec: `sc_num_vars` is declared in the absent header
`spookyhash.h`; the spec fixes the state at 12 words of 64 bits. -/
abbrev sc_num_vars : Nat := 12

/-- Modelled from the spec: `sc_block_size` is declared in the absent header
`spookyhash.h`; the spec fixes the block at 96 bytes (12 words of 8 bytes). -/
abbrev sc_block_size : Nat := sc_num_vars * 8

/-- Modelled from the spec: `sc_buf_size` is declared in the absent header
`spookyhash.h`; the spec fixes the buffer (and the short/long threshold) at
192 bytes, two blocks. -/
abbrev sc_buf_size : Nat := 2 * sc_block_size

/-- The twelve 64-bit variables `h0 .. h11` (locals of the long path, and the
array `vars` of the streaming state). -/
structure Vars where
  h0 : Nat
  h1 : Nat
  h2 : Nat
  h3 : Nat
  h4 : Nat
  h5 : Nat
  h6 : Nat
  h7 : Nat
  h8 : Nat
  h9 : Nat
  h10 : Nat
  h11 : Nat
deriving DecidableEq

/-- The four 64-bit locals `a, b, c, d` of `spookyhash_short`. -/
structure ABCD where
  a : Nat
  b : Nat
  c : Nat
  d : Nat
deriving DecidableEq

/-- Modelled from the spec: the header `spookyhash.h` is absent from the
sources, so the constant `sc_const` and the four round functions it declares
are parameters of the embedding.  `spookyhash_mix` and `spookyhash_end` take the
twelve words found at their data pointer and the twelve variables,
`spookyhash_smix` and `spookyhash_short_end` take the four short variables. -/
structure Header where
  sc_const : Nat
  spookyhash_mix : List Nat → Vars → Vars
  spookyhash_end : List Nat → Vars → Vars
  spookyhash_smix : ABCD → ABCD
  spookyhash_short_end : ABCD → ABCD

/-- Little-endian value of a run of bytes. -/
def leValue : List Byte → Nat
  | [] => 0
  | b :: bs => b.val + 256 * leValue bs

/-- The bytes `m[off .. off + len)`; bytes past the end of `m` are absent. -/
def slice (m : List Byte) (off len : Nat) : List Byte := (m.drop off).take len

/-- Load `u.p8[i]`: the byte at offset `off`. -/
def load8 (m : List Byte) (off : Nat) : Nat := leValue (slice m off 1)

/-- Load `u.p32[i]`: the little-endian 32-bit word at byte offset `off`. -/
def load32 (m : List Byte) (off : Nat) : Nat := leValue (slice m off 4)

/-- Load `u.p64[i]`: the little-endian 64-bit word at byte offset `off`. -/
def load64 (m : List Byte) (off : Nat) : Nat := leValue (slice m off 8)

/-- The twelve 64-bit words a round function reads at byte offset `off`. -/
def loadBlock (m : List Byte) (off : Nat) : List Nat :=
  (List.range sc_num_vars).map (fun i => load64 m (off + 8 * i))

/-- `x << k` on `uint64_t`. -/
def shl64 (x k : Nat) : Nat := (x * 2 ^ k) % 2 ^ 64

/-- `c += x` on `uint64_t`. -/
def addc (s : ABCD) (x : Nat) : ABCD := { s with c := (s.c + x) % 2 ^ 64 }

/-- `d += x` on `uint64_t`. -/
def addd (s : ABCD) (x : Nat) : ABCD := { s with d := (s.d + x) % 2 ^ 64 }

/-- `a += x` on `uint64_t`. -/
def adda (s : ABCD) (x : Nat) : ABCD := { s with a := (s.a + x) % 2 ^ 64 }

/-- `b += x` on `uint64_t`. -/
def addb (s : ABCD) (x : Nat) : ABCD := { s with b := (s.b + x) % 2 ^ 64 }

/-- `memcpy(dst + off, src, |src|)`. -/
def memcpy (dst : List Byte) (off : Nat) (src : List Byte) : List Byte :=
  dst.take off ++ src ++ dst.drop (off + src.length)

/-- `memset(dst + off, v, n)`. -/
def memset (dst : List Byte) (off : Nat) (v : Byte) (n : Nat) : List Byte :=
  memcpy dst off (List.replicate n v)

/-! ## `spookyhash_short` -/

/-- The loop `for (; u.p64 < end; u.p64 += 4)` of `spookyhash_short` (lines
58-65).  `p` and `endp` are byte offsets into `m`; the result is the pointer
and the variables on leaving the loop. -/
def short_loop (H : Header) (m : List Byte) (endp : Nat) : Nat → Nat → ABCD → Nat × ABCD
  | 0, p, s => (p, s)
  | fuel + 1, p, s =>
    if p < endp then
      let s := addc s (load64 m p)
      let s := addd s (load64 m (p + 8))
      let s := H.spookyhash_smix s
      let s := adda s (load64 m (p + 16))
      let s := addb s (load64 m (p + 24))
      short_loop H m endp fuel (p + 32) s
    else (p, s)

/-- Label `case 12:` of the switch (lines 89-92). -/
def tail_case12 (m : List Byte) (p : Nat) (s : ABCD) : ABCD :=
  addc (addd s (load32 m (p + 8))) (load64 m p)

/-- Label `case 13:` falling through to `case 12:`. -/
def tail_case13 (m : List Byte) (p : Nat) (s : ABCD) : ABCD :=
  tail_case12 m p (addd s (shl64 (load8 m (p + 12)) 32))

/-- Label `case 14:` falling through to `case 13:`. -/
def tail_case14 (m : List Byte) (p : Nat) (s : ABCD) : ABCD :=
  tail_case13 m p (addd s (shl64 (load8 m (p + 13)) 40))

/-- Label `case 15:` falling through to `case 14:`. -/
def tail_case15 (m : List Byte) (p : Nat) (s : ABCD) : ABCD :=
  tail_case14 m p (addd s (shl64 (load8 m (p + 14)) 48))

/-- Label `case 8:` of the switch (lines 99-101). -/
def tail_case8 (m : List Byte) (p : Nat) (s : ABCD) : ABCD :=
  addc s (load64 m p)

/-- Label `case 9:` falling through to `case 8:`. -/
def tail_case9 (m : List Byte) (p : Nat) (s : ABCD) : ABCD :=
  tail_case8 m p (addd s (load8 m (p + 8)))

/-- Label `case 10:` falling through to `case 9:`. -/
def tail_case10 (m : List Byte) (p : Nat) (s : ABCD) : ABCD :=
  tail_case9 m p (addd s (shl64 (load8 m (p + 9)) 8))

/-- Label `case 11:` falling through to `case 10:`. -/
def tail_case11 (m : List Byte) (p : Nat) (s : ABCD) : ABCD :=
  tail_case10 m p (addd s (shl64 (load8 m (p + 10)) 16))

/-- Label `case 4:` of the switch (lines 108-110). -/
def tail_case4 (m : List Byte) (p : Nat) (s : ABCD) : ABCD :=
  addc s (load32 m p)

/-- Label `case 5:` falling through to `case 4:`. -/
def tail_case5 (m : List Byte) (p : Nat) (s : ABCD) : ABCD :=
  tail_case4 m p (addc s (shl64 (load8 m (p + 4)) 32))

/-- Label `case 6:` falling through to `case 5:`. -/
def tail_case6 (m : List Byte) (p : Nat) (s : ABCD) : ABCD :=
  tail_case5 m p (addc s (shl64 (load8 m (p + 5)) 40))

/-- Label `case 7:` falling through to `case 6:`. -/
def tail_case7 (m : List Byte) (p : Nat) (s : ABCD) : ABCD :=
  tail_case6 m p (addc s (shl64 (load8 m (p + 6)) 48))

/-- Label `case 1:` of the switch (lines 115-117). -/
def tail_case1 (m : List Byte) (p : Nat) (s : ABCD) : ABCD :=
  addc s (load8 m p)

/-- Label `case 2:` falling through to `case 1:`. -/
def tail_case2 (m : List Byte) (p : Nat) (s : ABCD) : ABCD :=
  tail_case1 m p (addc s (shl64 (load8 m (p + 1)) 8))

/-- Label `case 3:` falling through to `case 2:`. -/
def tail_case3 (m : List Byte) (p : Nat) (s : ABCD) : ABCD :=
  tail_case2 m p (addc s (shl64 (load8 m (p + 2)) 16))

/-- Label `case 0:` of the switch (lines 118-120). -/
def tail_case0 (H : Header) (s : ABCD) : ABCD :=
  addd (addc s H.sc_const) H.sc_const

/-- The statement `switch (remainder)` of `spookyhash_short` (lines 81-121),
with `u.p8` at byte offset `p` of `m`.  A value without a label leaves the
variables alone. -/
def short_switch (H : Header) (m : List Byte) (p remainder : Nat) (s : ABCD) : ABCD :=
  match remainder with
  | 15 => tail_case15 m p s
  | 14 => tail_case14 m p s
  | 13 => tail_case13 m p s
  | 12 => tail_case12 m p s
  | 11 => tail_case11 m p s
  | 10 => tail_case10 m p s
  | 9 => tail_case9 m p s
  | 8 => tail_case8 m p s
  | 7 => tail_case7 m p s
  | 6 => tail_case6 m p s
  | 5 => tail_case5 m p s
  | 4 => tail_case4 m p s
  | 3 => tail_case3 m p s
  | 2 => tail_case2 m p s
  | 1 => tail_case1 m p s
  | 0 => tail_case0 H s
  | _ => s

/-- Lines 78-121 of `spookyhash_short`: the length injection
`d += ((uint64_t)length) << 56` followed by the switch on `remainder`. -/
def short_tail (H : Header) (m : List Byte) (p length remainder : Nat) (s : ABCD) : ABCD :=
  short_switch H m p remainder (addd s (shl64 length 56))

/-- Lines 47-76 of `spookyhash_short`: the groups of 32 bytes and the optional
pair of words.  The result is the pointer `u.p8`, the variable `remainder` and
the four variables on reaching line 78. -/
def short_body (H : Header) (message : List Byte) (length : Nat) (hash1 hash2 : Nat) :
    Nat × Nat × ABCD :=
  let remainder := length % 32
  let s : ABCD := ⟨hash1, hash2, H.sc_const, H.sc_const⟩
  if length > 15 then
    let endp := 8 * ((length / 32) * 4)
    let r := short_loop H message endp length 0 s
    if remainder ≥ 16 then
      let s := addc r.2 (load64 message r.1)
      let s := addd s (load64 message (r.1 + 8))
      let s := H.spookyhash_smix s
      (r.1 + 8 * 2, remainder - 16, s)
    else (r.1, remainder, r.2)
  else (0, remainder, s)

/-- The function `spookyhash_short(message, length, hash1, hash2)`; the result
is the pair written back to `*hash1, *hash2`.  The loop is given `length`
iterations of fuel, more than it can use. -/
def spookyhash_short (H : Header) (message : List Byte) (length : Nat) (hash1 hash2 : Nat) :
    Nat × Nat :=
  let r := short_body H message length hash1 hash2
  let s := short_tail H message r.1 length r.2.1 r.2.2
  let s := H.spookyhash_short_end s
  (s.a, s.b)

/-! ## `spookyhash128` -/

/-- The initialisation `h0 = h3 = h6 = h9 = *hash1; h1 = h4 = h7 = h10 = *hash2;
h2 = h5 = h8 = h11 = sc_const` (lines 151-153 and 231-233). -/
def seed_vars (H : Header) (hash1 hash2 : Nat) : Vars :=
  { h0 := hash1, h1 := hash2, h2 := H.sc_const,
    h3 := hash1, h4 := hash2, h5 := H.sc_const,
    h6 := hash1, h7 := hash2, h8 := H.sc_const,
    h9 := hash1, h10 := hash2, h11 := H.sc_const }

/-- The loop `while (u.p64 < end) { spookyhash_mix(u.p64, ...); u.p64 +=
sc_num_vars; }` (lines 161-166 and 280-285); `p` and `endp` are byte offsets. -/
def mix_loop (H : Header) (m : List Byte) (endp : Nat) : Nat → Nat → Vars → Nat × Vars
  | 0, p, h => (p, h)
  | fuel + 1, p, h =>
    if p < endp then
      mix_loop H m endp fuel (p + 8 * sc_num_vars) (H.spookyhash_mix (loadBlock m p) h)
    else (p, h)

/-- The scratch block of lines 180-185: `memcpy(buf, end, remainder)`, then
`memset(buf + remainder, 0, sc_block_size - remainder)`, then
`buf[sc_block_size - 1] = remainder`.  The two first calls write all of the
local `buf`, whose earlier contents therefore do not matter. -/
def last_block (message : List Byte) (endp remainder : Nat) : List Byte :=
  (slice message endp remainder ++ List.replicate (sc_block_size - remainder) 0).set
    (sc_block_size - 1) (toByte remainder)

/-- The function `spookyhash128(message, length, hash1, hash2)`; the result is
the pair written back to `*hash1, *hash2`. -/
def spookyhash128 (H : Header) (message : List Byte) (length : Nat) (hash1 hash2 : Nat) :
    Nat × Nat :=
  if length < sc_buf_size then
    spookyhash_short H message length hash1 hash2
  else
    let h := seed_vars H hash1 hash2
    let endp := 8 * ((length / sc_block_size) * sc_num_vars)
    let r := mix_loop H message endp length 0 h
    let remainder := length - endp
    let buf := last_block message endp remainder
    let h := H.spookyhash_end (loadBlock buf 0) r.2
    (h.h0, h.h1)

/-! ## The streaming state -/

/-- Modelled from the spec: the type `spooky_state` is declared in the absent
header `spookyhash.h`.  It holds the buffer `data` (192 bytes, declared as
`2 * sc_num_vars` words), the twelve variables `vars`, the total `length`
(`size_t`) and the buffered byte count `remainder` (`uint8_t`). -/
structure spooky_state where
  data : List Byte
  vars : Vars
  length : Nat
  remainder : Nat
deriving DecidableEq

/-- The function `spookyhash_init(seed1, seed2, state)`: four fields are
written, the rest of `*state` is left as it was. -/
def spookyhash_init (seed1 seed2 : Nat) (state : spooky_state) : spooky_state :=
  { state with
    length := 0
    remainder := 0
    vars := { state.vars with h0 := seed1, h1 := seed2 } }

/-- Lines 252-272 of `spookyhash_update`: use up what is stuffed away.  The
result is the buffer, the variables, the pointer `u.p8` into the message and
the local `length`. -/
def update_flush (H : Header) (message : List Byte) (state : spooky_state) (h : Vars) :
    List Byte × Vars × Nat × Nat :=
  if state.remainder ≠ 0 then
    let pfx := (sc_buf_size - state.remainder) % 256
    let data := memcpy state.data state.remainder (slice message 0 pfx)
    let h := H.spookyhash_mix (loadBlock data 0) h
    let h := H.spookyhash_mix (loadBlock data (8 * sc_num_vars)) h
    (data, h, pfx, (message.length + 2 ^ 64 - pfx) % 2 ^ 64)
  else
    (state.data, h, 0, message.length)

/-- The function `spookyhash_update(message, length, state)`, where `message`
is the fragment of `length` bytes. -/
def spookyhash_update (H : Header) (message : List Byte) (state : spooky_state) :
    spooky_state :=
  let length := message.length
  let new_length := (length + state.remainder) % 2 ^ 64
  if new_length < sc_buf_size then
    { state with
      data := memcpy state.data state.remainder (slice message 0 length)
      length := (length + state.length) % 2 ^ 64
      remainder := new_length % 256 }
  else
    let h := if state.length < sc_buf_size then
        seed_vars H state.vars.h0 state.vars.h1
      else state.vars
    let total := (length + state.length) % 2 ^ 64
    let f := update_flush H message state h
    let p := f.2.2.1
    let length := f.2.2.2
    let endp := p + 8 * ((length / sc_block_size) * sc_num_vars)
    let remainder := (length - (endp - p)) % 256
    let r := mix_loop H message endp length p f.2.1
    { data := memcpy f.1 0 (slice message endp remainder)
      vars := r.2
      length := total
      remainder := remainder }

/-- The function `spookyhash_final(hash1, hash2, state)`: the pair written to
`*hash1, *hash2`, and the state it leaves behind (the long path clears and
tags the tail of the buffer in place, lines 355-357). -/
def spookyhash_final (H : Header) (state : spooky_state) : (Nat × Nat) × spooky_state :=
  if state.length < sc_buf_size then
    (spookyhash_short H state.data state.length state.vars.h0 state.vars.h1, state)
  else
    let f : Nat × Nat × Vars :=
      if state.remainder ≥ sc_block_size then
        (8 * sc_num_vars, (state.remainder - sc_block_size) % 256,
          H.spookyhash_mix (loadBlock state.data 0) state.vars)
      else (0, state.remainder, state.vars)
    let off := f.1
    let remainder := f.2.1
    let data := memset state.data (off + remainder) 0 (sc_block_size - remainder)
    let data := data.set (off + (sc_block_size - 1)) (toByte remainder)
    let h := H.spookyhash_end (loadBlock data off) f.2.2
    ((h.h0, h.h1), { state with data := data })

/-- The call sequence `spookyhash_init(seed1, seed2, state)` followed by one
`spookyhash_update` per fragment, in order. -/
def stream (H : Header) (seed1 seed2 : Nat) (state : spooky_state)
    (fragments : List (List Byte)) : spooky_state :=
  fragments.foldl (fun s f => spookyhash_update H f s) (spookyhash_init seed1 seed2 state)

/-! ## Reference definitions, written from the specification -/

/-- The `i`-th consecutive 96-byte block of a message. -/
def block (M : List Byte) (i : Nat) : List Byte := slice M (96 * i) 96

/-- The Block Mixer applied to the first `n` consecutive 96-byte blocks of `M`,
in order, starting from the variables `h`. -/
def mix_blocks (H : Header) (M : List Byte) (h : Vars) : Nat → Vars
  | 0 => h
  | n + 1 => H.spookyhash_mix (loadBlock (block M n) 0) (mix_blocks H M h n)

/-- The MixState initialiser of the specification: `seed1` in words 0, 3, 6, 9,
`seed2` in words 1, 4, 7, 10 and the constant in words 2, 5, 8, 11. -/
def initial_mix_state (H : Header) (seed1 seed2 : Nat) : Vars :=
  ⟨seed1, seed2, H.sc_const, seed1, seed2, H.sc_const,
    seed1, seed2, H.sc_const, seed1, seed2, H.sc_const⟩

/-- The final block of the specification: the remainder bytes `tail`, then
zeros up to 96 bytes, with byte 95 replaced by the number of remainder bytes. -/
def padded_tail (tail : List Byte) : List Byte :=
  (tail ++ List.replicate (96 - tail.length) 0).set 95 (toByte tail.length)

/-- The long path of the One-shot Hash as the specification defines it. -/
def oneshot_reference (H : Header) (M : List Byte) (seed1 seed2 : Nat) : Nat × Nat :=
  let N := M.length
  let h := mix_blocks H M (initial_mix_state H seed1 seed2) (N / 96)
  let h := H.spookyhash_end (loadBlock (padded_tail (M.drop (N - N % 96))) 0) h
  (h.h0, h.h1)

/-- One complete 32-byte group at byte offset `off`: two words into `c, d`, a
short-mix round, two more words into `a, b`. -/
def absorb_group (H : Header) (M : List Byte) (off : Nat) (s : ABCD) : ABCD :=
  let s := H.spookyhash_smix
    { s with c := (s.c + load64 M off) % 2 ^ 64, d := (s.d + load64 M (off + 8)) % 2 ^ 64 }
  { s with a := (s.a + load64 M (off + 16)) % 2 ^ 64, b := (s.b + load64 M (off + 24)) % 2 ^ 64 }

/-- The first `n` complete 32-byte groups, at offsets `0, 32, 64, ...`. -/
def absorb_groups (H : Header) (M : List Byte) (s : ABCD) : Nat → ABCD
  | 0 => s
  | n + 1 => absorb_group H M (32 * n) (absorb_groups H M s n)

/-- One further 16-byte pair at byte offset `off`: two words into `c, d`
followed by a short-mix round. -/
def absorb_pair (H : Header) (M : List Byte) (off : Nat) (s : ABCD) : ABCD :=
  H.spookyhash_smix
    { s with c := (s.c + load64 M off) % 2 ^ 64, d := (s.d + load64 M (off + 8)) % 2 ^ 64 }

/-- The four short variables once the groups and the optional pair of a message
of `N` bytes are absorbed, as the specification describes it. -/
def short_absorbed (H : Header) (M : List Byte) (N : Nat) (s : ABCD) : ABCD :=
  let s := absorb_groups H M s (N / 32)
  if N % 32 ≥ 16 then absorb_pair H M (32 * (N / 32)) s else s

/-- The Short-Path Hasher of the specification, run from the four-word state
`s` on the first `N` bytes of `M`. -/
def short_reference (H : Header) (M : List Byte) (N : Nat) (s : ABCD) : Nat × Nat :=
  let s := short_absorbed H M N s
  let s := H.spookyhash_short_end (short_tail H M (N - N % 16) N (N % 16) s)
  (s.a, s.b)

/-- What the streaming context holds once the fragments received so far
concatenate to `M`, after `spookyhash_init(seed1, seed2, _)`. -/
structure Inv (H : Header) (seed1 seed2 : Nat) (M : List Byte) (s : spooky_state) : Prop where
  data_length : s.data.length = 192
  length_eq : s.length = M.length
  remainder_lt : s.remainder < 192
  remainder_le : s.remainder ≤ M.length
  buffered : s.data.take s.remainder = M.drop (M.length - s.remainder)
  absorbed : 96 ∣ (M.length - s.remainder)
  unpromoted : M.length < 192 →
    s.remainder = M.length ∧ s.vars.h0 = seed1 ∧ s.vars.h1 = seed2
  promoted : 192 ≤ M.length →
    s.vars = mix_blocks H M (initial_mix_state H seed1 seed2) ((M.length - s.remainder) / 96)

/-! ## Which path an update takes -/

/-- The guard of line 219 fails: `spookyhash_update` goes on to mix blocks
instead of only buffering the fragment. -/
def takes_mix_path (state : spooky_state) (message : List Byte) : Bool :=
  !decide ((message.length + state.remainder) % 2 ^ 64 < sc_buf_size)

/-- The update reaches line 229 and takes its `state->length < sc_buf_size`
branch, the seed-replicating initialisation of lines 231-233. -/
def promotes (state : spooky_state) (message : List Byte) : Bool :=
  takes_mix_path state message && decide (state.length < sc_buf_size)

/-- For each update of a run, in order: whether it mixes blocks, and whether it
executes the seed-replicating initialisation. -/
def stream_trace (H : Header) : spooky_state → List (List Byte) → List (Bool × Bool)
  | _, [] => []
  | s, f :: fs =>
    (takes_mix_path s f, promotes s f) :: stream_trace H (spookyhash_update H f s) fs

/-! ## Bounds-checked reading

The same code with every read of the message checked against the `N` bytes
the caller owns: a read that leaves `[0, N)` yields `none`, and so does a loop
that is not finished when its fuel is used up. -/

/-- Checked `u.p8[i]`. -/
def load8_checked (m : List Byte) (off : Nat) : Option Nat :=
  if off + 1 ≤ m.length then some (load8 m off) else none

/-- Checked `u.p32[i]`. -/
def load32_checked (m : List Byte) (off : Nat) : Option Nat :=
  if off + 4 ≤ m.length then some (load32 m off) else none

/-- Checked `u.p64[i]`. -/
def load64_checked (m : List Byte) (off : Nat) : Option Nat :=
  if off + 8 ≤ m.length then some (load64 m off) else none

/-- Checked read of the twelve words a round function takes at `off`. -/
def loadBlock_checked (m : List Byte) (off : Nat) : Option (List Nat) :=
  if off + 8 * sc_num_vars ≤ m.length then some (loadBlock m off) else none

/-- Checked read of the `len` source bytes of a `memcpy`. -/
def slice_checked (m : List Byte) (off len : Nat) : Option (List Byte) :=
  if off + len ≤ m.length then some (slice m off len) else none

/-- The loop of lines 58-65 with checked reads. -/
def short_loop_checked (H : Header) (m : List Byte) (endp : Nat) :
    Nat → Nat → ABCD → Option (Nat × ABCD)
  | 0, p, s => if p < endp then none else some (p, s)
  | fuel + 1, p, s =>
    if p < endp then do
      let w0 ← load64_checked m p
      let s := addc s w0
      let w1 ← load64_checked m (p + 8)
      let s := addd s w1
      let s := H.spookyhash_smix s
      let w2 ← load64_checked m (p + 16)
      let s := adda s w2
      let w3 ← load64_checked m (p + 24)
      let s := addb s w3
      short_loop_checked H m endp fuel (p + 32) s
    else some (p, s)

/-- Label `case 12:` with checked reads. -/
def tail_case12_checked (m : List Byte) (p : Nat) (s : ABCD) : Option ABCD := do
  let w ← load32_checked m (p + 8)
  let s := addd s w
  let v ← load64_checked m p
  pure (addc s v)

/-- Label `case 13:` with checked reads. -/
def tail_case13_checked (m : List Byte) (p : Nat) (s : ABCD) : Option ABCD := do
  let b ← load8_checked m (p + 12)
  tail_case12_checked m p (addd s (shl64 b 32))

/-- Label `case 14:` with checked reads. -/
def tail_case14_checked (m : List Byte) (p : Nat) (s : ABCD) : Option ABCD := do
  let b ← load8_checked m (p + 13)
  tail_case13_checked m p (addd s (shl64 b 40))

/-- Label `case 15:` with checked reads. -/
def tail_case15_checked (m : List Byte) (p : Nat) (s : ABCD) : Option ABCD := do
  let b ← load8_checked m (p + 14)
  tail_case14_checked m p (addd s (shl64 b 48))

/-- Label `case 8:` with checked reads. -/
def tail_case8_checked (m : List Byte) (p : Nat) (s : ABCD) : Option ABCD := do
  let v ← load64_checked m p
  pure (addc s v)

/-- Label `case 9:` with checked reads. -/
def tail_case9_checked (m : List Byte) (p : Nat) (s : ABCD) : Option ABCD := do
  let b ← load8_checked m (p + 8)
  tail_case8_checked m p (addd s b)

/-- Label `case 10:` with checked reads. -/
def tail_case10_checked (m : List Byte) (p : Nat) (s : ABCD) : Option ABCD := do
  let b ← load8_checked m (p + 9)
  tail_case9_checked m p (addd s (shl64 b 8))

/-- Label `case 11:` with checked reads. -/
def tail_case11_checked (m : List Byte) (p : Nat) (s : ABCD) : Option ABCD := do
  let b ← load8_checked m (p + 10)
  tail_case10_checked m p (addd s (shl64 b 16))

/-- Label `case 4:` with checked reads. -/
def tail_case4_checked (m : List Byte) (p : Nat) (s : ABCD) : Option ABCD := do
  let w ← load32_checked m p
  pure (addc s w)

/-- Label `case 5:` with checked reads. -/
def tail_case5_checked (m : List Byte) (p : Nat) (s : ABCD) : Option ABCD := do
  let b ← load8_checked m (p + 4)
  tail_case4_checked m p (addc s (shl64 b 32))

/-- Label `case 6:` with checked reads. -/
def tail_case6_checked (m : List Byte) (p : Nat) (s : ABCD) : Option ABCD := do
  let b ← load8_checked m (p + 5)
  tail_case5_checked m p (addc s (shl64 b 40))

/-- Label `case 7:` with checked reads. -/
def tail_case7_checked (m : List Byte) (p : Nat) (s : ABCD) : Option ABCD := do
  let b ← load8_checked m (p + 6)
  tail_case6_checked m p (addc s (shl64 b 48))

/-- Label `case 1:` with checked reads. -/
def tail_case1_checked (m : List Byte) (p : Nat) (s : ABCD) : Option ABCD := do
  let b ← load8_checked m p
  pure (addc s b)

/-- Label `case 2:` with checked reads. -/
def tail_case2_checked (m : List Byte) (p : Nat) (s : ABCD) : Option ABCD := do
  let b ← load8_checked m (p + 1)
  tail_case1_checked m p (addc s (shl64 b 8))

/-- Label `case 3:` with checked reads. -/
def tail_case3_checked (m : List Byte) (p : Nat) (s : ABCD) : Option ABCD := do
  let b ← load8_checked m (p + 2)
  tail_case2_checked m p (addc s (shl64 b 16))

/-- The switch of lines 81-121 with checked reads. -/
def short_switch_checked (H : Header) (m : List Byte) (p remainder : Nat) (s : ABCD) :
    Option ABCD :=
  match remainder with
  | 15 => tail_case15_checked m p s
  | 14 => tail_case14_checked m p s
  | 13 => tail_case13_checked m p s
  | 12 => tail_case12_checked m p s
  | 11 => tail_case11_checked m p s
  | 10 => tail_case10_checked m p s
  | 9 => tail_case9_checked m p s
  | 8 => tail_case8_checked m p s
  | 7 => tail_case7_checked m p s
  | 6 => tail_case6_checked m p s
  | 5 => tail_case5_checked m p s
  | 4 => tail_case4_checked m p s
  | 3 => tail_case3_checked m p s
  | 2 => tail_case2_checked m p s
  | 1 => tail_case1_checked m p s
  | 0 => some (tail_case0 H s)
  | _ => some s

/-- Lines 47-76 of `spookyhash_short` with checked reads. -/
def short_body_checked (H : Header) (message : List Byte) (length : Nat) (hash1 hash2 : Nat) :
    Option (Nat × Nat × ABCD) :=
  let remainder := length % 32
  let s : ABCD := ⟨hash1, hash2, H.sc_const, H.sc_const⟩
  if length > 15 then do
    let endp := 8 * ((length / 32) * 4)
    let r ← short_loop_checked H message endp length 0 s
    if remainder ≥ 16 then do
      let w0 ← load64_checked message r.1
      let s := addc r.2 w0
      let w1 ← load64_checked message (r.1 + 8)
      let s := addd s w1
      let s := H.spookyhash_smix s
      pure (r.1 + 8 * 2, remainder - 16, s)
    else pure (r.1, remainder, r.2)
  else pure (0, remainder, s)

/-- The function `spookyhash_short` with checked reads. -/
def spookyhash_short_checked (H : Header) (message : List Byte) (length : Nat)
    (hash1 hash2 : Nat) : Option (Nat × Nat) := do
  let r ← short_body_checked H message length hash1 hash2
  let s ← short_switch_checked H message r.1 r.2.1 (addd r.2.2 (shl64 length 56))
  let s := H.spookyhash_short_end s
  pure (s.a, s.b)

/-- The loop of lines 161-166 with checked reads. -/
def mix_loop_checked (H : Header) (m : List Byte) (endp : Nat) :
    Nat → Nat → Vars → Option (Nat × Vars)
  | 0, p, h => if p < endp then none else some (p, h)
  | fuel + 1, p, h =>
    if p < endp then do
      let w ← loadBlock_checked m p
      mix_loop_checked H m endp fuel (p + 8 * sc_num_vars) (H.spookyhash_mix w h)
    else some (p, h)

/-- The function `spookyhash128` with checked reads of the message. -/
def spookyhash128_checked (H : Header) (message : List Byte) (length : Nat)
    (hash1 hash2 : Nat) : Option (Nat × Nat) :=
  if length < sc_buf_size then
    spookyhash_short_checked H message length hash1 hash2
  else do
    let h := seed_vars H hash1 hash2
    let endp := 8 * ((length / sc_block_size) * sc_num_vars)
    let r ← mix_loop_checked H message endp length 0 h
    let remainder := length - endp
    let tail ← slice_checked message endp remainder
    let buf := (tail ++ List.replicate (sc_block_size - remainder) 0).set
      (sc_block_size - 1) (toByte remainder)
    let h := H.spookyhash_end (loadBlock buf 0) r.2
    pure (h.h0, h.h1)

/-- A sample header for evaluating the embedding on concrete inputs: each round
function folds its arguments together with a few additions. -/
def sampleHeader : Header where
  sc_const := 0xdeadbeefdeadbeef
  spookyhash_mix := fun d h =>
    { h with h0 := (h.h0 + 3 * h.h11 + d.sum) % 2 ^ 64, h1 := (h.h1 + h.h0 + d.headD 0) % 2 ^ 64,
             h11 := (h.h11 + h.h1 + 1) % 2 ^ 64 }
  spookyhash_end := fun d h =>
    { h with h0 := (h.h0 + 5 * h.h1 + d.sum) % 2 ^ 64, h1 := (h.h1 + 7 * h.h11 + d.getLastD 0) % 2 ^ 64 }
  spookyhash_smix := fun s =>
    { a := (s.a + s.d) % 2 ^ 64, b := (s.b + 3 * s.c) % 2 ^ 64, c := (s.c + s.a) % 2 ^ 64,
      d := (s.d + 5 * s.b) % 2 ^ 64 }
  spookyhash_short_end := fun s =>
    { s with a := (s.a + 3 * s.c + s.d) % 2 ^ 64, b := (s.b + s.c + 7 * s.d) % 2 ^ 64 }

/-- A state as a caller might pass it to `spookyhash_init`: 192 buffer bytes
and twelve variables holding left-over values. -/
def staleState : spooky_state where
  data := List.replicate 192 (0xaa : Byte)
  vars := ⟨1, 2, 3, 4, 5, 6, 7, 8, 9, 10, 11, 12⟩
  length := 777
  remainder := 55

/-- Four fragments, 300 bytes in all: the third one crosses the 192-byte
threshold. -/
def sampleFragments : List (List Byte) :=
  [List.replicate 100 1, [], List.replicate 150 2, List.replicate 50 3]

/-! ## The default-seeded wrappers -/

/-- Modelled from the spec: the two default seed constants `ur_hash_seed_1` and
`ur_hash_seed_2` are declared in the absent header `spookyhash.h`; the spec
only says that they are fixed, process-wide constants, so they are parameters. -/
structure DefaultSeeds where
  ur_hash_seed_1 : Nat
  ur_hash_seed_2 : Nat

/-- The function `spookyhash64_s(message, length)`: the local `hash1` after the
call of `spookyhash128` on the default seeds. -/
def spookyhash64_s (H : Header) (D : DefaultSeeds) (message : List Byte) (length : Nat) : Nat :=
  (spookyhash128 H message length D.ur_hash_seed_1 D.ur_hash_seed_2).1

/-- The function `spookyhash32_s(message, length)`: the narrowing
`(uint32_t)hash1` of the same local. -/
def spookyhash32_s (H : Header) (D : DefaultSeeds) (message : List Byte) (length : Nat) : Nat :=
  (spookyhash128 H message length D.ur_hash_seed_1 D.ur_hash_seed_2).1 % 2 ^ 32

/-! ## Runs of updates and finals -/

/-- One call on a streaming context after its `spookyhash_init`. -/
inductive Op where
  | update (fragment : List Byte)
  | final

/-- The fragments passed to `spookyhash_update` in a run, in order. -/
def fragments_of : List Op → List (List Byte)
  | [] => []
  | Op.update f :: rest => f :: fragments_of rest
  | Op.final :: rest => fragments_of rest

/-- A run of calls on a context: the context it leaves behind and the pairs
returned by its `spookyhash_final` calls, in order. -/
def run_ops (H : Header) : spooky_state → List Op → spooky_state × List (Nat × Nat)
  | s, [] => (s, [])
  | s, Op.update f :: rest => run_ops H (spookyhash_update H f s) rest
  | s, Op.final :: rest =>
    let r := spookyhash_final H s
    let t := run_ops H r.2 rest
    (t.1, r.1 :: t.2)

/-- What the `spookyhash_final` calls of a run should return when `M` is the
concatenation of the fragments received before the run: each one the one-shot
hash of everything passed to `spookyhash_update` before it. -/
def expected_digests (H : Header) (seed1 seed2 : Nat) : List Byte → List Op → List (Nat × Nat)
  | _, [] => []
  | M, Op.update f :: rest => expected_digests H seed1 seed2 (M ++ f) rest
  | M, Op.final :: rest =>
    spookyhash128 H M M.length seed1 seed2 :: expected_digests H seed1 seed2 M rest

/-! ## The tail of the long path and the `d` contribution of the short path -/

/-- The value that lines 78-121 of `spookyhash_short` add to `d` for a message
of `N` bytes: the variable `d` on leaving the switch when it enters line 79
as zero. -/
def d_contribution (H : Header) (m : List Byte) (N : Nat) : Nat :=
  (short_tail H m (N - N % 16) N (N % 16) ⟨0, 0, 0, 0⟩).d

/-! ## Bounds-checked streaming

The streaming functions with every access checked: a read of the fragment
must lie in its `L` bytes, a write into the buffer must lie in its 192 bytes,
and a read of the buffer must lie in the bytes that hold data (the buffered
ones and those written earlier in the same call). -/

/-- Checked `memcpy` or `memset` into the buffer. -/
def memcpy_checked (dst : List Byte) (off : Nat) (src : List Byte) : Option (List Byte) :=
  if off + src.length ≤ sc_buf_size then some (memcpy dst off src) else none

/-- Checked single-byte store into the buffer. -/
def store_checked (dst : List Byte) (off : Nat) (v : Byte) : Option (List Byte) :=
  if off < sc_buf_size then some (dst.set off v) else none

/-- Checked read of the twelve words at offset `off` of the buffer, of which
the first `written` bytes hold data. -/
def loadBlock_written (data : List Byte) (written off : Nat) : Option (List Nat) :=
  if off + 8 * sc_num_vars ≤ written then some (loadBlock data off) else none

/-- Lines 252-272 of `spookyhash_update` with checked accesses. -/
def update_flush_checked (H : Header) (message : List Byte) (state : spooky_state) (h : Vars) :
    Option (List Byte × Vars × Nat × Nat) :=
  if state.remainder ≠ 0 then do
    let pfx := (sc_buf_size - state.remainder) % 256
    let src ← slice_checked message 0 pfx
    let data ← memcpy_checked state.data state.remainder src
    let w0 ← loadBlock_written data (state.remainder + pfx) 0
    let h := H.spookyhash_mix w0 h
    let w1 ← loadBlock_written data (state.remainder + pfx) (8 * sc_num_vars)
    let h := H.spookyhash_mix w1 h
    pure (data, h, pfx, (message.length + 2 ^ 64 - pfx) % 2 ^ 64)
  else
    pure (state.data, h, 0, message.length)

/-- The function `spookyhash_update` with checked accesses. -/
def spookyhash_update_checked (H : Header) (message : List Byte) (state : spooky_state) :
    Option spooky_state :=
  let length := message.length
  let new_length := (length + state.remainder) % 2 ^ 64
  if new_length < sc_buf_size then do
    let src ← slice_checked message 0 length
    let data ← memcpy_checked state.data state.remainder src
    pure { state with
      data := data
      length := (length + state.length) % 2 ^ 64
      remainder := new_length % 256 }
  else do
    let h := if state.length < sc_buf_size then
        seed_vars H state.vars.h0 state.vars.h1
      else state.vars
    let total := (length + state.length) % 2 ^ 64
    let f ← update_flush_checked H message state h
    let p := f.2.2.1
    let length := f.2.2.2
    let endp := p + 8 * ((length / sc_block_size) * sc_num_vars)
    let remainder := (length - (endp - p)) % 256
    let r ← mix_loop_checked H message endp length p f.2.1
    let src ← slice_checked message endp remainder
    let data ← memcpy_checked f.1 0 src
    pure { data := data, vars := r.2, length := total, remainder := remainder }

/-- Lines 345-352 of `spookyhash_final` with the read of the first block
checked against the buffered bytes. -/
def final_first_checked (H : Header) (state : spooky_state) : Option (Nat × Nat × Vars) :=
  if state.remainder ≥ sc_block_size then do
    let w ← loadBlock_written state.data state.remainder 0
    pure (8 * sc_num_vars, (state.remainder - sc_block_size) % 256,
      H.spookyhash_mix w state.vars)
  else pure (0, state.remainder, state.vars)

/-- The function `spookyhash_final` with checked accesses; the short path reads
the buffer through `spookyhash_short_checked`, confined to the buffered bytes. -/
def spookyhash_final_checked (H : Header) (state : spooky_state) :
    Option ((Nat × Nat) × spooky_state) :=
  if state.length < sc_buf_size then do
    let r ← spookyhash_short_checked H (state.data.take state.remainder) state.length
      state.vars.h0 state.vars.h1
    pure (r, state)
  else do
    let f ← final_first_checked H state
    let off := f.1
    let remainder := f.2.1
    let data ← memcpy_checked state.data (off + remainder)
      (List.replicate (sc_block_size - remainder) 0)
    let data ← store_checked data (off + (sc_block_size - 1)) (toByte remainder)
    let w ← loadBlock_written data (off + remainder + (sc_block_size - remainder)) off
    let h := H.spookyhash_end w f.2.2
    pure ((h.h0, h.h1), { state with data := data })

/-! ## Values narrowed to eight bits -/

/-- The values that one call of `spookyhash_update` stores into a `uint8_t`, in
program order and before the narrowing: `new_length` (line 224) on the
buffering path; on the mixing path `sc_buf_size - state->remainder` (line 255,
when something is buffered) and `length - (end - u.p8)` (line 276). -/
def update_narrowings (message : List Byte) (state : spooky_state) : List Nat :=
  let length := message.length
  let new_length := (length + state.remainder) % 2 ^ 64
  if new_length < sc_buf_size then [new_length]
  else
    let pfx := (sc_buf_size - state.remainder) % 256
    let p := if state.remainder ≠ 0 then pfx else 0
    let length := if state.remainder ≠ 0 then (length + 2 ^ 64 - pfx) % 2 ^ 64 else length
    let endp := p + 8 * ((length / sc_block_size) * sc_num_vars)
    (if state.remainder ≠ 0 then [sc_buf_size - state.remainder] else [])
      ++ [length - (endp - p)]

/-- The values that one call of `spookyhash_final` stores into a `uint8_t`
before the narrowing: `remainder - sc_block_size` (line 351, when a whole
block is buffered) and the tag stored at offset 95 (line 357). -/
def final_narrowings (state : spooky_state) : List Nat :=
  if state.length < sc_buf_size then []
  else if state.remainder ≥ sc_block_size then
    [state.remainder - sc_block_size, (state.remainder - sc_block_size) % 256]
  else [state.remainder]

/-- The value that `spookyhash128` stores into a `uint8_t` before the
narrowing: the tag `remainder` stored at offset 95 (line 185). -/
def oneshot_narrowings (length : Nat) : List Nat :=
  if length < sc_buf_size then []
  else [length - 8 * ((length / sc_block_size) * sc_num_vars)]

/-- A run of six calls: updates of 100, 0, 150 and 50 bytes with two finals in
between, the first one before the 192-byte threshold is crossed. -/
def sampleOps : List Op :=
  [Op.update (List.replicate 100 1), Op.final, Op.update [],
    Op.update (List.replicate 150 2), Op.final, Op.update (List.replicate 50 3)]

/-- A cleared context: 192 zero bytes, zero variables and counters. -/
def freshState : spooky_state where
  data := List.replicate 192 0
  vars := ⟨0, 0, 0, 0, 0, 0, 0, 0, 0, 0, 0, 0⟩
  length := 0
  remainder := 0

/-! ## Slices and loads -/

theorem slice_length (m : List Byte) (off len : Nat) :
    (slice m off len).length = min len (m.length - off) := by
  simp [slice]

theorem slice_length_of_le (m : List Byte) (off len : Nat) (h : off + len ≤ m.length) :
    (slice m off len).length = len := by
  rw [slice_length]; omega

theorem slice_slice (m : List Byte) (off len off2 len2 : Nat) (h : off2 + len2 ≤ len) :
    slice (slice m off len) off2 len2 = slice m (off + off2) len2 := by
  unfold slice
  rw [List.drop_take, List.take_take, List.drop_drop, Nat.min_eq_left (by omega)]

theorem slice_append_right (m f : List Byte) (k len : Nat) :
    slice (m ++ f) (m.length + k) len = slice f k len := by
  unfold slice
  rw [List.drop_append]

theorem slice_append_left (m f : List Byte) (off len : Nat) (h : off + len ≤ m.length) :
    slice (m ++ f) off len = slice m off len := by
  unfold slice
  rw [List.drop_append_of_le_length (by omega), List.take_append_of_le_length]
  simp; omega

theorem slice_zero_of_length_le (m : List Byte) (len : Nat) (h : m.length ≤ len) :
    slice m 0 len = m := by
  simp [slice, List.take_of_length_le h]

theorem slice_drop (m : List Byte) (k off len : Nat) :
    slice (m.drop k) off len = slice m (k + off) len := by
  simp [slice, List.drop_drop]

theorem slice_take (m : List Byte) (n off len : Nat) (h : off + len ≤ n) :
    slice (m.take n) off len = slice m off len := by
  have := slice_slice m 0 n off len h
  simpa [slice] using this

theorem slice_congr (m1 m2 : List Byte) (o1 o2 n k len : Nat) (h : slice m1 o1 n = slice m2 o2 n)
    (hk : k + len ≤ n) : slice m1 (o1 + k) len = slice m2 (o2 + k) len := by
  rw [← slice_slice m1 o1 n k len hk, ← slice_slice m2 o2 n k len hk, h]

theorem slice_add (m : List Byte) (off a b : Nat) :
    slice m off (a + b) = slice m off a ++ slice m (off + a) b := by
  unfold slice
  rw [List.take_add, List.drop_drop]

theorem leValue_append (l1 l2 : List Byte) :
    leValue (l1 ++ l2) = leValue l1 + 256 ^ l1.length * leValue l2 := by
  induction l1 with
  | nil => simp [leValue]
  | cons b bs ih => simp [leValue, ih, pow_succ]; ring

theorem leValue_lt (l : List Byte) : leValue l < 256 ^ l.length := by
  induction l with
  | nil => simp [leValue]
  | cons b bs ih =>
    have hb := b.isLt
    simp only [leValue, List.length_cons, pow_succ]
    omega

theorem load64_congr (m1 m2 : List Byte) (o1 o2 n k : Nat) (h : slice m1 o1 n = slice m2 o2 n)
    (hk : k + 8 ≤ n) : load64 m1 (o1 + k) = load64 m2 (o2 + k) := by
  unfold load64; rw [slice_congr m1 m2 o1 o2 n k 8 h hk]

theorem loadBlock_congr (m1 m2 : List Byte) (o1 o2 : Nat)
    (h : slice m1 o1 sc_block_size = slice m2 o2 sc_block_size) :
    loadBlock m1 o1 = loadBlock m2 o2 := by
  unfold loadBlock
  apply List.map_congr_left
  intro i hi
  have hi2 : i < 12 := by simpa using hi
  exact load64_congr m1 m2 o1 o2 sc_block_size (8 * i) h (by simp only [sc_block_size, sc_num_vars]; omega)

/-! ## The loops -/

theorem loadBlock_block (M : List Byte) (i : Nat) :
    loadBlock (block M i) 0 = loadBlock M (96 * i) := by
  apply loadBlock_congr
  unfold block
  rw [slice_slice M (96 * i) 96 0 sc_block_size (by decide)]
  simp

theorem seed_vars_eq (H : Header) (a b : Nat) : seed_vars H a b = initial_mix_state H a b := rfl

theorem mix_loop_exit (H : Header) (m : List Byte) (endp fuel p : Nat) (h : Vars)
    (hp : endp ≤ p) : mix_loop H m endp fuel p h = (p, h) := by
  cases fuel with
  | zero => rfl
  | succ f => simp [mix_loop, Nat.not_lt.mpr hp]

theorem mix_loop_blocks (H : Header) (m M : List Byte) (h0 : Vars) :
    ∀ (n fuel p k : Nat), n ≤ fuel →
      (∀ j, j < n → loadBlock m (p + 96 * j) = loadBlock M (96 * (k + j))) →
      mix_loop H m (p + 96 * n) fuel p (mix_blocks H M h0 k)
        = (p + 96 * n, mix_blocks H M h0 (k + n)) := by
  intro n
  induction n with
  | zero =>
    intro fuel p k _ _
    simpa using mix_loop_exit H m p fuel p _ (Nat.le_refl p)
  | succ n ih =>
    intro fuel p k hf hb
    cases fuel with
    | zero => omega
    | succ f =>
      have h0b := hb 0 (by omega)
      simp only [Nat.mul_zero, Nat.add_zero] at h0b
      have hstep : H.spookyhash_mix (loadBlock m p) (mix_blocks H M h0 k)
          = mix_blocks H M h0 (k + 1) := by
        simp only [mix_blocks, loadBlock_block, h0b]
      have hlt : p < p + 96 * (n + 1) := by omega
      simp only [mix_loop, hlt, if_true, hstep]
      have := ih f (p + 8 * sc_num_vars) (k + 1) (by omega) (by
        intro j hj
        have := hb (j + 1) (by omega)
        rw [show p + 8 * sc_num_vars + 96 * j = p + 96 * (j + 1) by simp only [sc_num_vars]; omega,
          show k + 1 + j = k + (j + 1) by omega]
        exact this)
      rw [show p + 96 * (n + 1) = p + 8 * sc_num_vars + 96 * n by simp only [sc_num_vars]; omega,
        show k + (n + 1) = k + 1 + n by omega]
      exact this

theorem short_loop_exit (H : Header) (m : List Byte) (endp fuel p : Nat) (s : ABCD)
    (hp : endp ≤ p) : short_loop H m endp fuel p s = (p, s) := by
  cases fuel with
  | zero => rfl
  | succ f => simp [short_loop, Nat.not_lt.mpr hp]

theorem short_loop_groups (H : Header) (m : List Byte) (s0 : ABCD) :
    ∀ (n fuel k : Nat), n ≤ fuel →
      short_loop H m (32 * (k + n)) fuel (32 * k) (absorb_groups H m s0 k)
        = (32 * (k + n), absorb_groups H m s0 (k + n)) := by
  intro n
  induction n with
  | zero =>
    intro fuel k _
    simpa using short_loop_exit H m (32 * k) fuel (32 * k) _ (Nat.le_refl _)
  | succ n ih =>
    intro fuel k hf
    cases fuel with
    | zero => omega
    | succ f =>
      have hlt : 32 * k < 32 * (k + (n + 1)) := by omega
      have hstep : addb (adda (H.spookyhash_smix (addd (addc (absorb_groups H m s0 k)
          (load64 m (32 * k))) (load64 m (32 * k + 8)))) (load64 m (32 * k + 16)))
          (load64 m (32 * k + 24)) = absorb_groups H m s0 (k + 1) := by
        simp only [absorb_groups, absorb_group, addc, addd, adda, addb]
      simp only [short_loop, hlt, if_true, hstep]
      have := ih f (k + 1) (by omega)
      rw [show 32 * k + 32 = 32 * (k + 1) by omega,
        show k + (n + 1) = k + 1 + n by omega]
      exact this

theorem short_body_eq (H : Header) (m : List Byte) (N hash1 hash2 : Nat) :
    short_body H m N hash1 hash2
      = (N - N % 16, N % 16, short_absorbed H m N ⟨hash1, hash2, H.sc_const, H.sc_const⟩) := by
  have hloop := short_loop_groups H m ⟨hash1, hash2, H.sc_const, H.sc_const⟩ (N / 32) N 0
    (Nat.div_le_self N 32)
  simp only [Nat.mul_zero, Nat.zero_add, absorb_groups] at hloop
  unfold short_body short_absorbed
  by_cases h15 : N > 15
  · rw [if_pos h15]
    rw [show 8 * (N / 32 * 4) = 32 * (N / 32) by omega]
    dsimp only
    rw [hloop]
    by_cases h16 : N % 32 ≥ 16
    · simp only [h16, if_true, absorb_pair, addc, addd]
      refine Prod.ext ?_ (Prod.ext ?_ rfl)
      · simp only; omega
      · simp only; omega
    · simp only [h16, if_false]
      refine Prod.ext ?_ (Prod.ext ?_ rfl)
      · simp only; omega
      · simp only; omega
  · rw [if_neg h15]
    have h0 : N / 32 = 0 := by omega
    have h16 : ¬ (N % 32 ≥ 16) := by omega
    simp only [h0, absorb_groups, h16, if_false]
    refine Prod.ext ?_ (Prod.ext ?_ rfl)
    · simp only; omega
    · simp only; omega

theorem spookyhash_short_eq (H : Header) (m : List Byte) (N hash1 hash2 : Nat) :
    spookyhash_short H m N hash1 hash2
      = short_reference H m N ⟨hash1, hash2, H.sc_const, H.sc_const⟩ := by
  simp only [spookyhash_short, short_body_eq, short_reference]

/-! ## The tail switch -/

theorem leValue_slice_add (m : List Byte) (off a b : Nat) :
    leValue (slice m off (a + b))
      = leValue (slice m off a) + 256 ^ a * leValue (slice m (off + a) b) := by
  by_cases h : off + a ≤ m.length
  · rw [slice_add, leValue_append, slice_length_of_le m off a h]
  · have h1 : slice m (off + a) b = [] := by
      unfold slice
      rw [List.drop_of_length_le (by omega)]; simp
    have h2 : slice m off (a + b) = slice m off a := by
      rw [slice_add, h1, List.append_nil]
    rw [h2, h1]; simp [leValue]

theorem load8_lt (m : List Byte) (off : Nat) : load8 m off < 256 := by
  have h := leValue_lt (slice m off 1)
  have h2 : (slice m off 1).length ≤ 1 := by rw [slice_length]; omega
  have h3 : 256 ^ (slice m off 1).length ≤ 256 ^ 1 := Nat.pow_le_pow_right (by decide) h2
  unfold load8; omega

theorem leValue_slice_succ (m : List Byte) (off n : Nat) :
    leValue (slice m off (n + 1)) = leValue (slice m off n) + 256 ^ n * load8 m (off + n) :=
  leValue_slice_add m off n 1

theorem leValue_slice_zero (m : List Byte) (off : Nat) : leValue (slice m off 0) = 0 := by
  simp [slice, leValue]

theorem load32_bytes (m : List Byte) (p : Nat) :
    load32 m p = load8 m p + 256 * load8 m (p + 1) + 65536 * load8 m (p + 2)
      + 16777216 * load8 m (p + 3) := by
  have e1 := leValue_slice_succ m p 0
  have e2 := leValue_slice_succ m p 1
  have e3 := leValue_slice_succ m p 2
  have e4 := leValue_slice_succ m p 3
  rw [leValue_slice_zero] at e1
  simp only [Nat.zero_add, Nat.reduceAdd, Nat.reducePow, Nat.add_zero] at e1 e2 e3 e4
  unfold load32
  omega

theorem load64_bytes (m : List Byte) (p : Nat) :
    load64 m p = load32 m p + 4294967296 * load32 m (p + 4) := by
  have := leValue_slice_add m p 4 4
  simp only [Nat.reduceAdd, Nat.reducePow] at this
  unfold load64 load32
  omega

theorem take_slice (m : List Byte) (off len k : Nat) :
    (slice m off len).take k = slice m off (min k len) := by
  simp [slice, List.take_take]

theorem drop_slice (m : List Byte) (off len k : Nat) :
    (slice m off len).drop k = slice m (off + k) (len - k) := by
  simp [slice, List.drop_take, List.drop_drop]

theorem short_tail_zero (H : Header) (m : List Byte) (p length : Nat) (s : ABCD) :
    short_tail H m p length 0 s
      = ⟨s.a, s.b, (s.c + H.sc_const) % 2 ^ 64,
          (s.d + shl64 length 56 + H.sc_const) % 2 ^ 64⟩ := by
  simp only [short_tail, short_switch, tail_case0, addc, addd, ABCD.mk.injEq, true_and]
  omega

theorem short_tail_pos (H : Header) (m : List Byte) (p length r : Nat) (s : ABCD)
    (h1 : 1 ≤ r) (h15 : r ≤ 15) :
    short_tail H m p length r s
      = ⟨s.a, s.b, (s.c + leValue ((slice m p r).take 8)) % 2 ^ 64,
          (s.d + shl64 length 56 + leValue ((slice m p r).drop 8)) % 2 ^ 64⟩ := by
  have c1 := leValue_slice_succ m p 0
  have c2 := leValue_slice_succ m p 1
  have c3 := leValue_slice_succ m p 2
  have c4 := leValue_slice_succ m p 3
  have c5 := leValue_slice_succ m p 4
  have c6 := leValue_slice_succ m p 5
  have c7 := leValue_slice_succ m p 6
  have c8 := leValue_slice_succ m p 7
  have d1 := leValue_slice_succ m (p + 8) 0
  have d2 := leValue_slice_succ m (p + 8) 1
  have d3 := leValue_slice_succ m (p + 8) 2
  have d4 := leValue_slice_succ m (p + 8) 3
  have d5 := leValue_slice_succ m (p + 8) 4
  have d6 := leValue_slice_succ m (p + 8) 5
  have d7 := leValue_slice_succ m (p + 8) 6
  have z1 := leValue_slice_zero m p
  have z2 := leValue_slice_zero m (p + 8)
  have b0 := load8_lt m p
  have b1 := load8_lt m (p + 1)
  have b2 := load8_lt m (p + 2)
  have b3 := load8_lt m (p + 3)
  have b4 := load8_lt m (p + 4)
  have b5 := load8_lt m (p + 5)
  have b6 := load8_lt m (p + 6)
  have b7 := load8_lt m (p + 7)
  have b8 := load8_lt m (p + 8)
  have b9 := load8_lt m (p + 9)
  have b10 := load8_lt m (p + 10)
  have b11 := load8_lt m (p + 11)
  have b12 := load8_lt m (p + 12)
  have b13 := load8_lt m (p + 13)
  have b14 := load8_lt m (p + 14)
  simp only [Nat.zero_add, Nat.reduceAdd, Nat.reducePow, Nat.add_zero, Nat.add_assoc]
    at c1 c2 c3 c4 c5 c6 c7 c8 d1 d2 d3 d4 d5 d6 d7
  interval_cases r <;>
    simp only [short_tail, short_switch, tail_case1, tail_case2, tail_case3, tail_case4,
      tail_case5, tail_case6, tail_case7, tail_case8, tail_case9, tail_case10, tail_case11,
      tail_case12, tail_case13, tail_case14, tail_case15, addc, addd, shl64, load64_bytes,
      load32_bytes, take_slice, drop_slice, ABCD.mk.injEq, true_and, Nat.reduceAdd,
      Nat.reducePow, Nat.reduceSub, Nat.add_assoc, Nat.min_def, Nat.reduceLeDiff, if_true,
      if_false] <;>
    omega

/-! ## The short path reads the first `N` bytes only -/

theorem load64_congr_zero (m1 m2 : List Byte) (N off : Nat) (h : slice m1 0 N = slice m2 0 N)
    (hk : off + 8 ≤ N) : load64 m1 off = load64 m2 off := by
  have := load64_congr m1 m2 0 0 N off h hk
  simpa using this

theorem absorb_groups_congr (H : Header) (m1 m2 : List Byte) (N : Nat) (s : ABCD)
    (h : slice m1 0 N = slice m2 0 N) :
    ∀ n, 32 * n ≤ N → absorb_groups H m1 s n = absorb_groups H m2 s n := by
  intro n
  induction n with
  | zero => intro _; rfl
  | succ n ih =>
    intro hn
    simp only [absorb_groups, absorb_group, ih (by omega),
      load64_congr_zero m1 m2 N (32 * n) h (by omega),
      load64_congr_zero m1 m2 N (32 * n + 8) h (by omega),
      load64_congr_zero m1 m2 N (32 * n + 16) h (by omega),
      load64_congr_zero m1 m2 N (32 * n + 24) h (by omega)]

theorem short_absorbed_congr (H : Header) (m1 m2 : List Byte) (N : Nat) (s : ABCD)
    (h : slice m1 0 N = slice m2 0 N) : short_absorbed H m1 N s = short_absorbed H m2 N s := by
  unfold short_absorbed
  rw [absorb_groups_congr H m1 m2 N s h (N / 32) (by omega)]
  by_cases h16 : N % 32 ≥ 16
  · simp only [h16, if_true, absorb_pair,
      load64_congr_zero m1 m2 N (32 * (N / 32)) h (by omega),
      load64_congr_zero m1 m2 N (32 * (N / 32) + 8) h (by omega)]
  · simp only [h16, if_false]

theorem short_tail_congr (H : Header) (m1 m2 : List Byte) (N : Nat) (s : ABCD)
    (h : slice m1 0 N = slice m2 0 N) :
    short_tail H m1 (N - N % 16) N (N % 16) s = short_tail H m2 (N - N % 16) N (N % 16) s := by
  by_cases h0 : N % 16 = 0
  · rw [h0, short_tail_zero, short_tail_zero]
  · have hs := slice_congr m1 m2 0 0 N (N - N % 16) (N % 16) h (by omega)
    simp only [Nat.zero_add] at hs
    rw [short_tail_pos H m1 _ _ _ s (by omega) (by omega),
      short_tail_pos H m2 _ _ _ s (by omega) (by omega), hs]

theorem short_reference_congr (H : Header) (m1 m2 : List Byte) (N : Nat) (s : ABCD)
    (h : slice m1 0 N = slice m2 0 N) : short_reference H m1 N s = short_reference H m2 N s := by
  simp only [short_reference, short_absorbed_congr H m1 m2 N s h, short_tail_congr H m1 m2 N _ h]

theorem spookyhash_short_congr (H : Header) (m1 m2 : List Byte) (N a b : Nat)
    (h : slice m1 0 N = slice m2 0 N) :
    spookyhash_short H m1 N a b = spookyhash_short H m2 N a b := by
  rw [spookyhash_short_eq, spookyhash_short_eq, short_reference_congr H m1 m2 N _ h]

/-! ## The streaming invariant -/

theorem memcpy_length (dst src : List Byte) (off : Nat) (h : off + src.length ≤ dst.length) :
    (memcpy dst off src).length = dst.length := by
  simp [memcpy]; omega

theorem memcpy_take (dst src : List Byte) (off : Nat) (h : off ≤ dst.length) :
    (memcpy dst off src).take (off + src.length) = dst.take off ++ src := by
  unfold memcpy
  rw [List.take_left']
  simp; omega

theorem memcpy_take_left (dst src : List Byte) (off n : Nat) (h : off ≤ dst.length)
    (hn : n ≤ off) : (memcpy dst off src).take n = dst.take n := by
  unfold memcpy
  rw [List.append_assoc, List.take_append_of_le_length (by simp; omega), List.take_take,
    Nat.min_eq_left hn]

theorem block_append (M F : List Byte) (i : Nat) (h : 96 * (i + 1) ≤ M.length) :
    block (M ++ F) i = block M i := by
  unfold block
  exact slice_append_left M F (96 * i) 96 (by omega)

theorem mix_blocks_append (H : Header) (M F : List Byte) (h0 : Vars) :
    ∀ n, 96 * n ≤ M.length → mix_blocks H (M ++ F) h0 n = mix_blocks H M h0 n := by
  intro n
  induction n with
  | zero => intro _; rfl
  | succ n ih =>
    intro hn
    simp only [mix_blocks, ih (by omega), block_append M F n hn]

theorem inv_init (H : Header) (seed1 seed2 : Nat) (s0 : spooky_state)
    (hwf : s0.data.length = sc_buf_size) :
    Inv H seed1 seed2 [] (spookyhash_init seed1 seed2 s0) := by
  have hwf2 : s0.data.length = 192 := hwf
  constructor <;> simp [spookyhash_init, hwf2]

theorem inv_update_buffer (H : Header) (seed1 seed2 : Nat) (M F : List Byte) (s : spooky_state)
    (hinv : Inv H seed1 seed2 M s) (hlen : M.length + F.length < 2 ^ 64)
    (hlt : F.length + s.remainder < 192) :
    Inv H seed1 seed2 (M ++ F) (spookyhash_update H F s) := by
  obtain ⟨hd, hl, hr, hrl, hb, ⟨k, hk⟩, hu, hp⟩ := hinv
  have hnl : (F.length + s.remainder) % 2 ^ 64 = F.length + s.remainder := by omega
  have hupd : spookyhash_update H F s = { s with
      data := memcpy s.data s.remainder F
      length := F.length + M.length
      remainder := F.length + s.remainder } := by
    unfold spookyhash_update
    simp only [hnl, sc_buf_size, sc_block_size, sc_num_vars, hlt, if_true, hl,
      slice_zero_of_length_le F F.length (Nat.le_refl _)]
    congr 1 <;> omega
  rw [hupd]
  have hlenapp : (M ++ F).length = M.length + F.length := by simp
  refine ⟨?_, ?_, ?_, ?_, ?_, ?_, ?_, ?_⟩
  · show (memcpy s.data s.remainder F).length = 192
    rw [memcpy_length _ _ _ (by omega), hd]
  · show F.length + M.length = (M ++ F).length
    omega
  · show F.length + s.remainder < 192
    omega
  · show F.length + s.remainder ≤ (M ++ F).length
    omega
  · show (memcpy s.data s.remainder F).take (F.length + s.remainder)
        = (M ++ F).drop ((M ++ F).length - (F.length + s.remainder))
    rw [Nat.add_comm F.length, memcpy_take _ _ _ (by omega), hb, hlenapp,
      show M.length + F.length - (s.remainder + F.length) = M.length - s.remainder by omega,
      List.drop_append_of_le_length (by omega)]
  · show 96 ∣ (M ++ F).length - (F.length + s.remainder)
    exact ⟨k, by omega⟩
  · intro h
    show F.length + s.remainder = (M ++ F).length ∧ s.vars.h0 = seed1 ∧ s.vars.h1 = seed2
    have := hu (by omega)
    refine ⟨by omega, this.2⟩
  · intro h
    show s.vars = mix_blocks H (M ++ F) (initial_mix_state H seed1 seed2)
        (((M ++ F).length - (F.length + s.remainder)) / 96)
    have h192 : 192 ≤ M.length := by
      by_contra hc
      have := (hu (by omega)).1
      omega
    rw [hp h192, hlenapp,
      show M.length + F.length - (F.length + s.remainder) = M.length - s.remainder by omega,
      mix_blocks_append H M F _ _ (by omega)]

theorem inv_update_rest (H : Header) (seed1 seed2 : Nat) (M F d1 : List Byte)
    (kk p len1 : Nat) (hd : d1.length = 192) (hp : p + len1 = F.length)
    (hk : M.length + p = 96 * kk) (h192 : 192 ≤ M.length + F.length) :
    Inv H seed1 seed2 (M ++ F)
      { data := memcpy d1 0 (slice F (p + 8 * ((len1 / sc_block_size) * sc_num_vars))
          ((len1 - (p + 8 * ((len1 / sc_block_size) * sc_num_vars) - p)) % 256))
        vars := (mix_loop H F (p + 8 * ((len1 / sc_block_size) * sc_num_vars)) len1 p
          (mix_blocks H (M ++ F) (initial_mix_state H seed1 seed2) kk)).2
        length := M.length + F.length
        remainder := (len1 - (p + 8 * ((len1 / sc_block_size) * sc_num_vars) - p)) % 256 } := by
  have he : p + 8 * ((len1 / sc_block_size) * sc_num_vars) = p + 96 * (len1 / 96) := by
    simp only [sc_block_size, sc_num_vars]; omega
  have hr : (len1 - (p + 96 * (len1 / 96) - p)) % 256 = len1 % 96 := by omega
  rw [he, hr]
  have hloop := mix_loop_blocks H F (M ++ F) (initial_mix_state H seed1 seed2) (len1 / 96) len1 p kk
    (Nat.div_le_self _ _) (by
      intro j _
      apply loadBlock_congr
      rw [show 96 * (kk + j) = M.length + (p + 96 * j) by omega, slice_append_right])
  rw [hloop]
  have hlenapp : (M ++ F).length = M.length + F.length := by simp
  have hsl : slice F (p + 96 * (len1 / 96)) (len1 % 96) = F.drop (p + 96 * (len1 / 96)) := by
    unfold slice
    rw [List.take_of_length_le (by simp; omega)]
  have hsllen : (F.drop (p + 96 * (len1 / 96))).length = len1 % 96 := by simp; omega
  rw [hsl]
  refine ⟨?_, ?_, ?_, ?_, ?_, ?_, ?_, ?_⟩
  · show (memcpy d1 0 _).length = 192
    rw [memcpy_length _ _ _ (by omega), hd]
  · show M.length + F.length = (M ++ F).length
    omega
  · show len1 % 96 < 192
    omega
  · show len1 % 96 ≤ (M ++ F).length
    omega
  · show (memcpy d1 0 (F.drop (p + 96 * (len1 / 96)))).take (len1 % 96)
        = (M ++ F).drop ((M ++ F).length - len1 % 96)
    have := memcpy_take d1 (F.drop (p + 96 * (len1 / 96))) 0 (by omega)
    rw [hsllen] at this
    simp only [Nat.zero_add, List.take_zero, List.nil_append] at this
    rw [this, hlenapp,
      show M.length + F.length - len1 % 96 = M.length + (p + 96 * (len1 / 96)) by omega,
      List.drop_append]
  · show 96 ∣ (M ++ F).length - len1 % 96
    exact ⟨kk + len1 / 96, by omega⟩
  · intro h
    rw [hlenapp] at h
    omega
  · intro _
    show mix_blocks H (M ++ F) (initial_mix_state H seed1 seed2) (kk + len1 / 96) = _
    congr 1
    show kk + len1 / 96 = ((M ++ F).length - len1 % 96) / 96
    omega

theorem update_flush_eq (H : Header) (M F : List Byte) (s : spooky_state) (h0 : Vars) (k : Nat)
    (hd : s.data.length = 192) (hr : s.remainder < 192) (hr0 : s.remainder ≠ 0)
    (hb : s.data.take s.remainder = M.drop (M.length - s.remainder))
    (hk : M.length = 96 * k + s.remainder) (hlen : M.length + F.length < 2 ^ 64)
    (hge : 192 ≤ F.length + s.remainder) :
    update_flush H F s (mix_blocks H (M ++ F) h0 k)
      = (slice (M ++ F) (96 * k) 192, mix_blocks H (M ++ F) h0 (k + 2),
          192 - s.remainder, F.length - (192 - s.remainder)) := by
  have hpfx : (sc_buf_size - s.remainder) % 256 = 192 - s.remainder := by
    simp only [sc_buf_size, sc_block_size, sc_num_vars]; omega
  have hsl : (slice F 0 (192 - s.remainder)).length = 192 - s.remainder :=
    slice_length_of_le F 0 _ (by omega)
  have hdrop : s.data.drop (s.remainder + (192 - s.remainder)) = [] :=
    List.drop_of_length_le (by omega)
  have hdl : (M.drop (96 * k)).length = s.remainder := by simp; omega
  have hdata : memcpy s.data s.remainder (slice F 0 (192 - s.remainder))
      = slice (M ++ F) (96 * k) 192 := by
    unfold memcpy
    rw [hsl, hdrop, List.append_nil, hb, show M.length - s.remainder = 96 * k by omega]
    unfold slice
    rw [List.drop_append_of_le_length (by omega), List.take_append_eq_append_take,
      List.take_of_length_le (l := M.drop (96 * k)) (by omega), hdl, List.drop_zero]
  have hb0 : loadBlock (slice (M ++ F) (96 * k) 192) 0 = loadBlock (M ++ F) (96 * k) := by
    apply loadBlock_congr
    rw [slice_slice _ _ _ _ _ (by decide)]; rfl
  have hb1 : loadBlock (slice (M ++ F) (96 * k) 192) (8 * sc_num_vars)
      = loadBlock (M ++ F) (96 * (k + 1)) := by
    apply loadBlock_congr
    rw [slice_slice _ _ _ _ _ (by decide)]; rfl
  unfold update_flush
  simp only [hr0, ne_eq, not_false_eq_true, if_true, hpfx, hdata, hb0, hb1]
  refine Prod.ext rfl (Prod.ext ?_ (Prod.ext rfl ?_))
  · simp only [mix_blocks, loadBlock_block]
  · show (F.length + 2 ^ 64 - (192 - s.remainder)) % 2 ^ 64 = F.length - (192 - s.remainder)
    omega

theorem inv_update_mix (H : Header) (seed1 seed2 : Nat) (M F : List Byte) (s : spooky_state)
    (hinv : Inv H seed1 seed2 M s) (hlen : M.length + F.length < 2 ^ 64)
    (hge : 192 ≤ F.length + s.remainder) :
    Inv H seed1 seed2 (M ++ F) (spookyhash_update H F s) := by
  obtain ⟨hd, hl, hr, hrl, hb, ⟨k, hk⟩, hu, hp⟩ := hinv
  have hnl : ¬ ((F.length + s.remainder) % 2 ^ 64 < sc_buf_size) := by
    simp only [sc_buf_size, sc_block_size, sc_num_vars]; omega
  have hvars : (if s.length < sc_buf_size then seed_vars H s.vars.h0 s.vars.h1 else s.vars)
      = mix_blocks H (M ++ F) (initial_mix_state H seed1 seed2) k := by
    rw [mix_blocks_append H M F _ k (by omega)]
    by_cases h : M.length < 192
    · have h3 := hu h
      have hk0 : k = 0 := by omega
      rw [hl, if_pos (by simpa [sc_buf_size, sc_block_size, sc_num_vars] using h), h3.2.1, h3.2.2,
        hk0]
      rfl
    · rw [hl, if_neg (by simpa [sc_buf_size, sc_block_size, sc_num_vars] using h),
        hp (by omega)]
      congr 1
      omega
  have htot : (F.length + s.length) % 2 ^ 64 = M.length + F.length := by omega
  unfold spookyhash_update
  simp only [hnl, if_false, hvars, htot]
  by_cases hr0 : s.remainder = 0
  · have hf : update_flush H F s (mix_blocks H (M ++ F) (initial_mix_state H seed1 seed2) k)
        = (s.data, mix_blocks H (M ++ F) (initial_mix_state H seed1 seed2) k, 0, F.length) := by
      simp [update_flush, hr0]
    rw [hf]
    exact inv_update_rest H seed1 seed2 M F s.data k 0 F.length hd (by omega) (by omega)
      (by omega)
  · rw [update_flush_eq H M F s _ k hd hr hr0 hb (by omega) hlen hge]
    exact inv_update_rest H seed1 seed2 M F _ (k + 2) (192 - s.remainder)
      (F.length - (192 - s.remainder))
      (by rw [slice_length_of_le _ _ _ (by simp; omega)]) (by omega) (by omega) (by omega)

theorem inv_update (H : Header) (seed1 seed2 : Nat) (M F : List Byte) (s : spooky_state)
    (hinv : Inv H seed1 seed2 M s) (hlen : M.length + F.length < 2 ^ 64) :
    Inv H seed1 seed2 (M ++ F) (spookyhash_update H F s) := by
  by_cases h : F.length + s.remainder < 192
  · exact inv_update_buffer H seed1 seed2 M F s hinv hlen h
  · exact inv_update_mix H seed1 seed2 M F s hinv hlen (by omega)

theorem inv_foldl (H : Header) (seed1 seed2 : Nat) :
    ∀ (fragments : List (List Byte)) (M : List Byte) (s : spooky_state),
      Inv H seed1 seed2 M s → M.length + fragments.flatten.length < 2 ^ 64 →
      Inv H seed1 seed2 (M ++ fragments.flatten)
        (fragments.foldl (fun s f => spookyhash_update H f s) s) := by
  intro fragments
  induction fragments with
  | nil => intro M s hinv _; simpa using hinv
  | cons f fs ih =>
    intro M s hinv hlen
    simp only [List.flatten_cons, List.length_append] at hlen
    have h1 := inv_update H seed1 seed2 M f s hinv (by omega)
    have h2 := ih (M ++ f) (spookyhash_update H f s) h1 (by rw [List.length_append]; omega)
    simpa [List.append_assoc] using h2

theorem inv_stream (H : Header) (seed1 seed2 : Nat) (s0 : spooky_state)
    (fragments : List (List Byte)) (hwf : s0.data.length = sc_buf_size)
    (hlen : fragments.flatten.length < 2 ^ 64) :
    Inv H seed1 seed2 fragments.flatten (stream H seed1 seed2 s0 fragments) := by
  have := inv_foldl H seed1 seed2 fragments [] _ (inv_init H seed1 seed2 s0 hwf)
    (by simpa using hlen)
  simpa [stream] using this

/-! ## `spookyhash128` and `spookyhash_final` -/

theorem padded_tail_length (t : List Byte) (h : t.length ≤ 96) : (padded_tail t).length = 96 := by
  simp [padded_tail]; omega

theorem last_block_eq (M : List Byte) (endp rem : Nat) (h : endp + rem = M.length)
    (hrem : rem < 96) : last_block M endp rem = padded_tail (M.drop endp) := by
  have hs : slice M endp rem = M.drop endp := by
    unfold slice; rw [List.take_of_length_le (by simp; omega)]
  have hl : (M.drop endp).length = rem := by simp; omega
  unfold last_block padded_tail
  rw [hs, hl]
  rfl

theorem spookyhash128_long (H : Header) (M : List Byte) (seed1 seed2 : Nat)
    (h : 192 ≤ M.length) :
    spookyhash128 H M M.length seed1 seed2 = oneshot_reference H M seed1 seed2 := by
  have hloop := mix_loop_blocks H M M (initial_mix_state H seed1 seed2) (M.length / 96)
    M.length 0 0 (Nat.div_le_self _ _) (by intro j _; simp)
  simp only [Nat.zero_add, mix_blocks] at hloop
  have he : 8 * ((M.length / sc_block_size) * sc_num_vars) = 96 * (M.length / 96) := by
    simp only [sc_block_size, sc_num_vars]; omega
  unfold spookyhash128 oneshot_reference
  rw [if_neg (by simp only [sc_buf_size, sc_block_size, sc_num_vars]; omega)]
  simp only [he, seed_vars_eq, hloop]
  rw [last_block_eq M _ _ (by omega) (by omega),
    show 96 * (M.length / 96) = M.length - M.length % 96 by omega]

theorem spookyhash128_short (H : Header) (M : List Byte) (N seed1 seed2 : Nat) (h : N < 192) :
    spookyhash128 H M N seed1 seed2 = spookyhash_short H M N seed1 seed2 := by
  unfold spookyhash128
  rw [if_pos (by simpa [sc_buf_size, sc_block_size, sc_num_vars] using h)]

theorem final_block_slice (d : List Byte) (off rem : Nat) (v : Byte)
    (hd : off + 96 ≤ d.length) (hrem : rem < 96) :
    slice ((memset d (off + rem) 0 (96 - rem)).set (off + 95) v) off 96
      = ((slice d off rem) ++ List.replicate (96 - rem) 0).set 95 v := by
  have hA : (d.take (off + rem)).length = off + rem := by simp; omega
  unfold memset memcpy slice
  simp only [List.length_replicate]
  rw [List.set_append_left _ _ (by simp; omega), List.drop_append_of_le_length (by simp; omega),
    List.take_append_of_le_length (by simp; omega), List.take_of_length_le (by simp; omega),
    List.drop_set, if_neg (by omega), List.drop_append_of_le_length (by omega),
    List.drop_take, show off + 95 - off = 95 by omega, show off + rem - off = rem by omega]

theorem final_data_length (d : List Byte) (off rem : Nat) (v : Byte)
    (hd : off + 96 ≤ d.length) (hrem : rem < 96) :
    ((memset d (off + rem) 0 (96 - rem)).set (off + 95) v).length = d.length := by
  rw [List.length_set]
  unfold memset
  rw [memcpy_length _ _ _ (by simp; omega)]

theorem final_data_take (d : List Byte) (off rem : Nat) (v : Byte)
    (hd : off + 96 ≤ d.length) (hrem : rem < 96) :
    ((memset d (off + rem) 0 (96 - rem)).set (off + 95) v).take (off + rem)
      = d.take (off + rem) := by
  rw [List.set_take, List.set_eq_of_length_le (by simp; omega)]
  unfold memset
  rw [memcpy_take_left _ _ _ _ (by omega) (Nat.le_refl _)]

theorem final_data_drop (d : List Byte) (off rem : Nat) (v : Byte)
    (hd : off + 96 ≤ d.length) (hrem : rem < 96) :
    ((memset d (off + rem) 0 (96 - rem)).set (off + 95) v).drop (off + 96)
      = d.drop (off + 96) := by
  rw [List.drop_set_of_lt _ _ (by omega)]
  unfold memset memcpy
  rw [List.drop_left' (by simp; omega), List.length_replicate,
    show off + rem + (96 - rem) = off + 96 by omega]

theorem buffered_slice (M : List Byte) (s : spooky_state) (k off len : Nat)
    (hb : s.data.take s.remainder = M.drop (M.length - s.remainder))
    (hk : M.length = 96 * k + s.remainder) (h : off + len ≤ s.remainder) :
    slice s.data off len = slice M (96 * k + off) len := by
  rw [← slice_take s.data s.remainder off len h, hb, slice_drop,
    show M.length - s.remainder = 96 * k by omega]

/-- On the long path `spookyhash_final` unfolds to the two in-place writes on
the buffer and one call of `spookyhash_end`. -/
theorem final_long_unfold (H : Header) (M : List Byte) (seed1 seed2 : Nat) (s : spooky_state)
    (hinv : Inv H seed1 seed2 M s) (h192 : 192 ≤ M.length) :
    ∃ off rem, off + rem = s.remainder ∧ rem < 96 ∧ (off = 0 ∨ off = 96) ∧
      spookyhash_final H s
        = (((H.spookyhash_end (loadBlock (padded_tail (M.drop (M.length - M.length % 96))) 0)
              (mix_blocks H M (initial_mix_state H seed1 seed2) (M.length / 96))).h0,
            (H.spookyhash_end (loadBlock (padded_tail (M.drop (M.length - M.length % 96))) 0)
              (mix_blocks H M (initial_mix_state H seed1 seed2) (M.length / 96))).h1),
          { s with data := (memset s.data (off + rem) 0 (96 - rem)).set (off + 95) (toByte rem) })
      := by
  obtain ⟨hd, hl, hr, hrl, hb, ⟨k, hk⟩, hu, hp⟩ := hinv
  have hk2 : M.length = 96 * k + s.remainder := by omega
  have hv := hp h192
  rw [show (M.length - s.remainder) / 96 = k by omega] at hv
  have hnl : ¬ (s.length < sc_buf_size) := by
    simp only [sc_buf_size, sc_block_size, sc_num_vars]; omega
  have key : ∀ off rem, off + rem = s.remainder → rem < 96 → (off = 0 ∨ off = 96) →
      loadBlock ((memset s.data (off + rem) 0 (96 - rem)).set (off + 95) (toByte rem)) off
        = loadBlock (padded_tail (M.drop (M.length - M.length % 96))) 0 := by
    intro off rem h1 h2 h3
    have hrem : rem = M.length % 96 := by omega
    have htl : (M.drop (M.length - M.length % 96)).length = rem := by simp; omega
    apply loadBlock_congr
    rw [show sc_block_size = 96 by rfl, final_block_slice _ _ _ _ (by omega) h2,
      slice_zero_of_length_le _ _ (by rw [padded_tail_length _ (by omega)]),
      buffered_slice M s k off rem hb hk2 (by omega)]
    have hs : slice M (96 * k + off) rem = M.drop (M.length - M.length % 96) := by
      unfold slice
      rw [List.take_of_length_le (by simp; omega),
        show 96 * k + off = M.length - M.length % 96 by omega]
    rw [hs]
    unfold padded_tail
    rw [htl]
  unfold spookyhash_final
  rw [if_neg hnl]
  by_cases h96 : s.remainder ≥ sc_block_size
  · have h96b : 96 ≤ s.remainder := h96
    refine ⟨96, s.remainder - 96, by omega, by omega, Or.inr rfl, ?_⟩
    have hblk : H.spookyhash_mix (loadBlock s.data 0) s.vars
        = mix_blocks H M (initial_mix_state H seed1 seed2) (M.length / 96) := by
      rw [show M.length / 96 = k + 1 by omega, hv]
      simp only [mix_blocks, loadBlock_block]
      congr 1
      apply loadBlock_congr
      exact buffered_slice M s k 0 96 hb hk2 (by omega)
    simp only [if_pos h96, hblk]
    have e1 : (s.remainder - sc_block_size) % 256 = s.remainder - 96 := by
      simp only [sc_block_size, sc_num_vars]; omega
    have e2 : 8 * sc_num_vars = 96 := rfl
    have e3 : sc_block_size - (s.remainder - 96) = 96 - (s.remainder - 96) := rfl
    have e4 : 96 + (sc_block_size - 1) = 96 + 95 := rfl
    rw [e1, e2, e3, e4, key 96 (s.remainder - 96) (by omega) (by omega) (Or.inr rfl)]
  · have h96b : s.remainder < 96 := by
      simp only [sc_block_size, sc_num_vars] at h96; omega
    refine ⟨0, s.remainder, by omega, by omega, Or.inl rfl, ?_⟩
    simp only [if_neg h96]
    have e3 : sc_block_size - s.remainder = 96 - s.remainder := rfl
    have e4 : 0 + (sc_block_size - 1) = 0 + 95 := rfl
    rw [e3, e4, key 0 s.remainder (by omega) (by omega) (Or.inl rfl), hv,
      show M.length / 96 = k by omega]

theorem final_short_eq (H : Header) (M : List Byte) (seed1 seed2 : Nat) (s : spooky_state)
    (hinv : Inv H seed1 seed2 M s) (h192 : M.length < 192) :
    spookyhash_final H s = (spookyhash_short H M M.length seed1 seed2, s) := by
  obtain ⟨hd, hl, hr, hrl, hb, _, hu, hp⟩ := hinv
  obtain ⟨h1, h2, h3⟩ := hu h192
  unfold spookyhash_final
  rw [if_pos (by simp only [sc_buf_size, sc_block_size, sc_num_vars]; omega), hl, h2, h3]
  congr 1
  apply spookyhash_short_congr
  rw [h1, Nat.sub_self, List.drop_zero] at hb
  unfold slice
  simp only [List.drop_zero, List.take_length]
  exact hb

theorem final_eq_oneshot (H : Header) (M : List Byte) (seed1 seed2 : Nat) (s : spooky_state)
    (hinv : Inv H seed1 seed2 M s) :
    (spookyhash_final H s).1 = spookyhash128 H M M.length seed1 seed2 := by
  by_cases h : M.length < 192
  · rw [final_short_eq H M seed1 seed2 s hinv h, spookyhash128_short H M _ _ _ h]
  · obtain ⟨off, rem, _, _, _, hf⟩ := final_long_unfold H M seed1 seed2 s hinv (by omega)
    rw [hf, spookyhash128_long H M seed1 seed2 (by omega)]
    rfl

theorem final_preserves_inv (H : Header) (M : List Byte) (seed1 seed2 : Nat) (s : spooky_state)
    (hinv : Inv H seed1 seed2 M s) : Inv H seed1 seed2 M (spookyhash_final H s).2 := by
  by_cases h : M.length < 192
  · rw [final_short_eq H M seed1 seed2 s hinv h]; exact hinv
  · obtain ⟨off, rem, h1, h2, h3, hf⟩ := final_long_unfold H M seed1 seed2 s hinv (by omega)
    rw [hf]
    obtain ⟨hd, hl, hr, hrl, hb, hk, hu, hp⟩ := hinv
    refine ⟨?_, hl, hr, hrl, ?_, hk, hu, hp⟩
    · show ((memset s.data (off + rem) 0 (96 - rem)).set (off + 95) (toByte rem)).length = 192
      rw [final_data_length _ _ _ _ (by omega) h2, hd]
    · show ((memset s.data (off + rem) 0 (96 - rem)).set (off + 95) (toByte rem)).take
          s.remainder = _
      rw [← h1, final_data_take _ _ _ _ (by omega) h2, h1, hb]

theorem final_frame (H : Header) (M : List Byte) (seed1 seed2 : Nat) (s : spooky_state)
    (hinv : Inv H seed1 seed2 M s) :
    (spookyhash_final H s).2.length = s.length ∧
    (spookyhash_final H s).2.remainder = s.remainder ∧
    (spookyhash_final H s).2.vars = s.vars ∧
    (spookyhash_final H s).2.data.length = s.data.length ∧
    (spookyhash_final H s).2.data.take s.remainder = s.data.take s.remainder ∧
    (spookyhash_final H s).2.data.drop (96 * (s.remainder / 96 + 1))
      = s.data.drop (96 * (s.remainder / 96 + 1)) ∧
    (s.length < 192 → (spookyhash_final H s).2 = s) := by
  by_cases h : M.length < 192
  · rw [final_short_eq H M seed1 seed2 s hinv h]
    simp
  · obtain ⟨off, rem, h1, h2, h3, hf⟩ := final_long_unfold H M seed1 seed2 s hinv (by omega)
    have hd := hinv.data_length
    have hl := hinv.length_eq
    have hoff : 96 * (s.remainder / 96 + 1) = off + 96 := by omega
    rw [hf, hoff]
    refine ⟨rfl, rfl, rfl, ?_, ?_, ?_, ?_⟩
    · exact final_data_length _ _ _ _ (by omega) h2
    · show ((memset s.data (off + rem) 0 (96 - rem)).set (off + 95) (toByte rem)).take
          s.remainder = _
      rw [← h1, final_data_take _ _ _ _ (by omega) h2]
    · exact final_data_drop _ _ _ _ (by omega) h2
    · intro hc; omega

/-! ## Bounds-checked reading succeeds -/

theorem load8_checked_eq (m : List Byte) (off : Nat) (h : off + 1 ≤ m.length) :
    load8_checked m off = some (load8 m off) := by
  simp [load8_checked, h]

theorem load32_checked_eq (m : List Byte) (off : Nat) (h : off + 4 ≤ m.length) :
    load32_checked m off = some (load32 m off) := by
  simp [load32_checked, h]

theorem load64_checked_eq (m : List Byte) (off : Nat) (h : off + 8 ≤ m.length) :
    load64_checked m off = some (load64 m off) := by
  simp [load64_checked, h]

theorem loadBlock_checked_eq (m : List Byte) (off : Nat) (h : off + 96 ≤ m.length) :
    loadBlock_checked m off = some (loadBlock m off) := by
  have h2 : off + 8 * sc_num_vars ≤ m.length := h
  simp [loadBlock_checked, h2]

theorem short_loop_checked_eq (H : Header) (m : List Byte) :
    ∀ (n fuel k : Nat) (s : ABCD), n ≤ fuel → 32 * (k + n) ≤ m.length →
      short_loop_checked H m (32 * (k + n)) fuel (32 * k) s
        = some (short_loop H m (32 * (k + n)) fuel (32 * k) s) := by
  intro n
  induction n with
  | zero =>
    intro fuel k s _ _
    cases fuel <;> simp [short_loop_checked, short_loop]
  | succ n ih =>
    intro fuel k s hf hm
    cases fuel with
    | zero => omega
    | succ f =>
      have hlt : 32 * k < 32 * (k + (n + 1)) := by omega
      have := ih f (k + 1)
      rw [show 32 * (k + 1) = 32 * k + 32 by omega,
        show k + 1 + n = k + (n + 1) by omega] at this
      simp only [short_loop_checked, short_loop, hlt, if_true,
        load64_checked_eq m (32 * k) (by omega), load64_checked_eq m (32 * k + 8) (by omega),
        load64_checked_eq m (32 * k + 16) (by omega),
        load64_checked_eq m (32 * k + 24) (by omega), Option.bind_eq_bind, Option.some_bind,
        this _ (by omega) hm]

theorem short_switch_checked_eq (H : Header) (m : List Byte) (p r : Nat) (s : ABCD)
    (hr : r ≤ 15) (hm : p + r ≤ m.length) :
    short_switch_checked H m p r s = some (short_switch H m p r s) := by
  interval_cases r
  · rfl
  all_goals
    simp only [short_switch_checked, short_switch, tail_case1_checked, tail_case2_checked,
      tail_case3_checked, tail_case4_checked, tail_case5_checked, tail_case6_checked,
      tail_case7_checked, tail_case8_checked, tail_case9_checked, tail_case10_checked,
      tail_case11_checked, tail_case12_checked, tail_case13_checked, tail_case14_checked,
      tail_case15_checked, tail_case1, tail_case2, tail_case3, tail_case4, tail_case5,
      tail_case6, tail_case7, tail_case8, tail_case9, tail_case10, tail_case11, tail_case12,
      tail_case13, tail_case14, tail_case15, load8_checked, load32_checked, load64_checked,
      Option.bind_eq_bind, Option.pure_def]
    repeat rw [if_pos (by omega), Option.some_bind]

theorem short_body_checked_eq (H : Header) (m : List Byte) (N hash1 hash2 : Nat)
    (hm : N ≤ m.length) :
    short_body_checked H m N hash1 hash2 = some (short_body H m N hash1 hash2) := by
  have hloop := short_loop_groups H m ⟨hash1, hash2, H.sc_const, H.sc_const⟩ (N / 32) N 0
    (Nat.div_le_self N 32)
  have hchk := short_loop_checked_eq H m (N / 32) N 0 ⟨hash1, hash2, H.sc_const, H.sc_const⟩
    (Nat.div_le_self N 32) (by omega)
  simp only [Nat.mul_zero, Nat.zero_add, absorb_groups] at hloop hchk
  rw [hloop] at hchk
  unfold short_body_checked short_body
  by_cases h15 : N > 15
  · rw [if_pos h15, if_pos h15, show 8 * (N / 32 * 4) = 32 * (N / 32) by omega]
    dsimp only
    rw [hloop]
    simp only [Option.bind_eq_bind, hchk, Option.some_bind]
    by_cases h16 : N % 32 ≥ 16
    · simp only [h16, if_true, load64_checked_eq m (32 * (N / 32)) (by omega),
        load64_checked_eq m (32 * (N / 32) + 8) (by omega), Option.some_bind, Option.pure_def]
    · simp only [h16, if_false, Option.pure_def]
  · rw [if_neg h15, if_neg h15]
    rfl

theorem spookyhash_short_checked_eq (H : Header) (m : List Byte) (N hash1 hash2 : Nat)
    (hm : N ≤ m.length) :
    spookyhash_short_checked H m N hash1 hash2 = some (spookyhash_short H m N hash1 hash2) := by
  have hb := short_body_eq H m N hash1 hash2
  unfold spookyhash_short_checked spookyhash_short
  simp only [short_body_checked_eq H m N hash1 hash2 hm, Option.bind_eq_bind, Option.some_bind,
    hb, short_tail]
  rw [short_switch_checked_eq H m _ _ _ (by omega) (by omega)]
  rfl

theorem mix_loop_checked_eq (H : Header) (m : List Byte) :
    ∀ (n fuel k : Nat) (h : Vars), n ≤ fuel → 96 * (k + n) ≤ m.length →
      mix_loop_checked H m (96 * (k + n)) fuel (96 * k) h
        = some (mix_loop H m (96 * (k + n)) fuel (96 * k) h) := by
  intro n
  induction n with
  | zero =>
    intro fuel k h _ _
    cases fuel <;> simp [mix_loop_checked, mix_loop]
  | succ n ih =>
    intro fuel k h hf hm
    cases fuel with
    | zero => omega
    | succ f =>
      have hlt : 96 * k < 96 * (k + (n + 1)) := by omega
      have := ih f (k + 1)
      rw [show 96 * (k + 1) = 96 * k + 8 * sc_num_vars by simp only [sc_num_vars]; omega,
        show k + 1 + n = k + (n + 1) by omega] at this
      simp only [mix_loop_checked, mix_loop, hlt, if_true,
        loadBlock_checked_eq m (96 * k) (by omega), Option.bind_eq_bind, Option.some_bind,
        this _ (by omega) hm]

theorem spookyhash128_checked_eq (H : Header) (M : List Byte) (seed1 seed2 : Nat) :
    spookyhash128_checked H M M.length seed1 seed2
      = some (spookyhash128 H M M.length seed1 seed2) := by
  unfold spookyhash128_checked spookyhash128
  by_cases h : M.length < sc_buf_size
  · rw [if_pos h, if_pos h]
    exact spookyhash_short_checked_eq H M M.length seed1 seed2 (Nat.le_refl _)
  · rw [if_neg h, if_neg h]
    have he : 8 * ((M.length / sc_block_size) * sc_num_vars) = 96 * (0 + M.length / 96) := by
      simp only [sc_block_size, sc_num_vars]; omega
    have hchk := mix_loop_checked_eq H M (M.length / 96) M.length 0 (seed_vars H seed1 seed2)
      (Nat.div_le_self _ _) (by omega)
    rw [he]
    simp only [Nat.mul_zero] at hchk
    simp only [Option.bind_eq_bind, hchk, Option.some_bind, slice_checked]
    rw [if_pos (by omega)]
    rfl

/-! ## Promotion -/

theorem takes_mix_path_iff (H : Header) (seed1 seed2 : Nat) (M F : List Byte) (s : spooky_state)
    (hinv : Inv H seed1 seed2 M s) (hlen : M.length + F.length < 2 ^ 64) :
    takes_mix_path s F = true ↔ 192 ≤ F.length + s.remainder := by
  have := hinv.remainder_le
  simp only [takes_mix_path, sc_buf_size, sc_block_size, sc_num_vars, Bool.not_eq_true',
    decide_eq_false_iff_not]
  omega

theorem promotes_iff (H : Header) (seed1 seed2 : Nat) (M F : List Byte) (s : spooky_state)
    (hinv : Inv H seed1 seed2 M s) :
    promotes s F = true ↔ takes_mix_path s F = true ∧ M.length < 192 := by
  simp only [promotes, Bool.and_eq_true, decide_eq_true_eq, hinv.length_eq]
  rfl

theorem unmixed_step (H : Header) (seed1 seed2 : Nat) (M F : List Byte) (s : spooky_state)
    (hinv : Inv H seed1 seed2 M s) (hlen : M.length + F.length < 2 ^ 64) :
    (M ++ F).length < 192 ↔ M.length < 192 ∧ takes_mix_path s F = false := by
  have h1 := takes_mix_path_iff H seed1 seed2 M F s hinv hlen
  have h2 := hinv.unpromoted
  have h3 := hinv.remainder_le
  rw [List.length_append]
  constructor
  · intro h
    refine ⟨by omega, ?_⟩
    cases hc : takes_mix_path s F with
    | false => rfl
    | true => have := h1.mp hc; have := h2 (by omega); omega
  · rintro ⟨ha, hb⟩
    have hn : ¬ (192 ≤ F.length + s.remainder) := by
      intro hc; rw [h1.mpr hc] at hb; cases hb
    have := h2 ha
    omega

theorem trace_promotes (H : Header) (seed1 seed2 : Nat) :
    ∀ (fragments : List (List Byte)) (M : List Byte) (s : spooky_state),
      Inv H seed1 seed2 M s → M.length + fragments.flatten.length < 2 ^ 64 →
      ∀ (i : Nat) (x : Bool × Bool), (stream_trace H s fragments)[i]? = some x →
        (x.2 = true ↔ (M.length < 192 ∧ x.1 = true ∧
          ∀ (j : Nat) (y : Bool × Bool), j < i →
            (stream_trace H s fragments)[j]? = some y → y.1 = false)) := by
  intro fragments
  induction fragments with
  | nil => intro M s _ _ i x hx; simp [stream_trace] at hx
  | cons f fs ih =>
    intro M s hinv hlen i x hx
    simp only [List.flatten_cons, List.length_append] at hlen
    have hstep := unmixed_step H seed1 seed2 M f s hinv (by omega)
    cases i with
    | zero =>
      simp only [stream_trace, List.getElem?_cons_zero, Option.some.injEq] at hx
      subst hx
      simp only [promotes_iff H seed1 seed2 M f s hinv]
      constructor
      · rintro ⟨h1, h2⟩
        exact ⟨h2, h1, fun j y hj => absurd hj (Nat.not_lt_zero j)⟩
      · rintro ⟨h1, h2, _⟩
        exact ⟨h2, h1⟩
    | succ i =>
      simp only [stream_trace, List.getElem?_cons_succ] at hx
      have h1 := inv_update H seed1 seed2 M f s hinv (by omega)
      have h2 := ih (M ++ f) (spookyhash_update H f s) h1
        (by rw [List.length_append]; omega) i x hx
      rw [h2, hstep]
      constructor
      · rintro ⟨⟨ha, hb⟩, hc, hd⟩
        refine ⟨ha, hc, ?_⟩
        intro j y hj hy
        cases j with
        | zero =>
          simp only [stream_trace, List.getElem?_cons_zero, Option.some.injEq] at hy
          rw [← hy]; exact hb
        | succ j =>
          simp only [stream_trace, List.getElem?_cons_succ] at hy
          exact hd j y (by omega) hy
      · rintro ⟨ha, hc, hd⟩
        refine ⟨⟨ha, ?_⟩, hc, ?_⟩
        · exact hd 0 (takes_mix_path s f, promotes s f) (by omega) (by simp [stream_trace])
        · intro j y hj hy
          exact hd (j + 1) y (by omega) (by simpa [stream_trace] using hy)

theorem trace_unmixed (H : Header) (seed1 seed2 : Nat) :
    ∀ (fragments : List (List Byte)) (M : List Byte) (s : spooky_state),
      Inv H seed1 seed2 M s → M.length + fragments.flatten.length < 2 ^ 64 →
      ((M ++ fragments.flatten).length < 192 ↔
        (M.length < 192 ∧ ∀ x ∈ stream_trace H s fragments, x.1 = false)) := by
  intro fragments
  induction fragments with
  | nil => intro M s _ _; simp [stream_trace]
  | cons f fs ih =>
    intro M s hinv hlen
    simp only [List.flatten_cons, List.length_append] at hlen
    have hstep := unmixed_step H seed1 seed2 M f s hinv (by omega)
    have h1 := inv_update H seed1 seed2 M f s hinv (by omega)
    have h2 := ih (M ++ f) (spookyhash_update H f s) h1 (by rw [List.length_append]; omega)
    rw [List.flatten_cons, ← List.append_assoc, h2, hstep]
    simp only [stream_trace, List.mem_cons, forall_eq_or_imp]
    tauto

theorem update_vars_buffer (H : Header) (F : List Byte) (s : spooky_state)
    (h : takes_mix_path s F = false) : (spookyhash_update H F s).vars = s.vars := by
  have hlt : (F.length + s.remainder) % 2 ^ 64 < sc_buf_size := by
    simpa [takes_mix_path] using h
  unfold spookyhash_update
  simp only [hlt, if_true]

theorem update_vars_mix (H : Header) (F : List Byte) (s : spooky_state)
    (hd : s.data.length = 192) (hr : s.remainder < 192) (hF : F.length + s.remainder < 2 ^ 64)
    (hge : 192 ≤ F.length + s.remainder) :
    (spookyhash_update H F s).vars
      = mix_blocks H (s.data.take s.remainder ++ F)
          (if s.length < sc_buf_size then seed_vars H s.vars.h0 s.vars.h1 else s.vars)
          ((s.remainder + F.length) / 96) := by
  have hnl : ¬ ((F.length + s.remainder) % 2 ^ 64 < sc_buf_size) := by
    simp only [sc_buf_size, sc_block_size, sc_num_vars]; omega
  have htl : (s.data.take s.remainder).length = s.remainder := by simp; omega
  generalize hh : (if s.length < sc_buf_size then seed_vars H s.vars.h0 s.vars.h1 else s.vars)
    = h
  unfold spookyhash_update
  simp only [hnl, if_false, hh]
  by_cases hr0 : s.remainder = 0
  · have hf : update_flush H F s h = (s.data, h, 0, F.length) := by
      simp [update_flush, hr0]
    have hloop := mix_loop_blocks H F (s.data.take s.remainder ++ F) h (F.length / 96)
      F.length 0 0 (Nat.div_le_self _ _) (by
        intro j _
        apply loadBlock_congr
        rw [show 96 * (0 + j) = (s.data.take s.remainder).length + (0 + 96 * j) by omega,
          slice_append_right])
    simp only [mix_blocks, Nat.zero_add] at hloop
    rw [hf]
    simp only [sc_block_size, sc_num_vars, Nat.zero_add]
    rw [show 8 * (F.length / (12 * 8) * 12) = 96 * (F.length / 96) by omega, hloop,
      show (s.remainder + F.length) / 96 = F.length / 96 by omega]
  · have hflush := update_flush_eq H (s.data.take s.remainder) F s h 0 hd hr hr0
      (by rw [htl, Nat.sub_self, List.drop_zero]) (by omega) (by omega) hge
    simp only [mix_blocks, Nat.zero_add] at hflush
    have hloop := mix_loop_blocks H F (s.data.take s.remainder ++ F) h
      ((F.length - (192 - s.remainder)) / 96) (F.length - (192 - s.remainder))
      (192 - s.remainder) 2 (Nat.div_le_self _ _) (by
        intro j _
        apply loadBlock_congr
        rw [show 96 * (2 + j)
            = (s.data.take s.remainder).length + (192 - s.remainder + 96 * j) by omega,
          slice_append_right])
    simp only [mix_blocks] at hloop
    rw [hflush]
    simp only [sc_block_size, sc_num_vars]
    rw [show 192 - s.remainder + 8 * ((F.length - (192 - s.remainder)) / (12 * 8) * 12)
        = 192 - s.remainder + 96 * ((F.length - (192 - s.remainder)) / 96) by omega, hloop,
      show (s.remainder + F.length) / 96 = 2 + (F.length - (192 - s.remainder)) / 96 by omega]

theorem stream_trace_split (H : Header) :
    ∀ (pre : List (List Byte)) (F : List Byte) (post : List (List Byte)) (s : spooky_state),
      (stream_trace H s (pre ++ F :: post))[pre.length]?
        = some (takes_mix_path (pre.foldl (fun s f => spookyhash_update H f s) s) F,
            promotes (pre.foldl (fun s f => spookyhash_update H f s) s) F) := by
  intro pre
  induction pre with
  | nil => intro F post s; simp [stream_trace]
  | cons f fs ih =>
    intro F post s
    simp only [List.cons_append, stream_trace, List.length_cons, List.getElem?_cons_succ,
      List.foldl_cons]
    exact ih F post (spookyhash_update H f s)

/-! ## The claims -/

set_option maxRecDepth 100000

/-- C1: for every header (whatever the round functions compute), every seed
pair and every list of fragments (empty ones included) of total length below
`2 ^ 64`, `spookyhash_init` followed by one `spookyhash_update` per fragment and
`spookyhash_final` yields the pair that `spookyhash128` yields on the
concatenation of the fragments from the same seeds, on both sides of the
192-byte threshold. -/
theorem streaming_equals_oneshot (H : Header) (seed1 seed2 : Nat) (s0 : spooky_state)
    (fragments : List (List Byte)) (hwf : s0.data.length = sc_buf_size)
    (hlen : fragments.flatten.length < 2 ^ 64) :
    (spookyhash_final H (stream H seed1 seed2 s0 fragments)).1
      = spookyhash128 H fragments.flatten fragments.flatten.length seed1 seed2 :=
  final_eq_oneshot H fragments.flatten seed1 seed2 _
    (inv_stream H seed1 seed2 s0 fragments hwf hlen)

/-- Witness of C1 on a run of four fragments, 300 bytes in all. -/
theorem streaming_equals_oneshot_witness :
    staleState.data.length = sc_buf_size ∧ sampleFragments.flatten.length < 2 ^ 64 ∧
    (spookyhash_final sampleHeader (stream sampleHeader 11 22 staleState sampleFragments)).1
      = spookyhash128 sampleHeader sampleFragments.flatten sampleFragments.flatten.length 11 22 :=
  ⟨by decide, by decide,
    streaming_equals_oneshot sampleHeader 11 22 staleState sampleFragments (by decide)
      (by decide)⟩

/-- C2: on every context reached by `spookyhash_init` and any updates, a second
`spookyhash_final` right after a first one returns the same pair. -/
theorem final_idempotent (H : Header) (seed1 seed2 : Nat) (s0 : spooky_state)
    (fragments : List (List Byte)) (hwf : s0.data.length = sc_buf_size)
    (hlen : fragments.flatten.length < 2 ^ 64) :
    (spookyhash_final H
        (spookyhash_final H (stream H seed1 seed2 s0 fragments)).2).1
      = (spookyhash_final H (stream H seed1 seed2 s0 fragments)).1 := by
  have hinv := inv_stream H seed1 seed2 s0 fragments hwf hlen
  rw [final_eq_oneshot H fragments.flatten seed1 seed2 _
      (final_preserves_inv H fragments.flatten seed1 seed2 _ hinv),
    final_eq_oneshot H fragments.flatten seed1 seed2 _ hinv]

/-- Witness of C2 on a run of four fragments, 300 bytes in all. -/
theorem final_idempotent_witness :
    staleState.data.length = sc_buf_size ∧ sampleFragments.flatten.length < 2 ^ 64 ∧
    (spookyhash_final sampleHeader
        (spookyhash_final sampleHeader
          (stream sampleHeader 11 22 staleState sampleFragments)).2).1
      = (spookyhash_final sampleHeader
          (stream sampleHeader 11 22 staleState sampleFragments)).1 :=
  ⟨by decide, by decide,
    final_idempotent sampleHeader 11 22 staleState sampleFragments (by decide) (by decide)⟩

/-- C3, counterexample: after `spookyhash_init` and four updates that carry 300
bytes (108 of them still buffered), the context that `spookyhash_final` leaves
is not the context it was given: buffer byte 150, which held the value 2 left
there by the third update, is cleared by the padding `memset` of line 355. -/
theorem final_writes_buffer :
    staleState.data.length = sc_buf_size ∧ sampleFragments.flatten.length < 2 ^ 64 ∧
    (stream sampleHeader 11 22 staleState sampleFragments).remainder = 108 ∧
    (stream sampleHeader 11 22 staleState sampleFragments).data[150]? = some 2 ∧
    (spookyhash_final sampleHeader
      (stream sampleHeader 11 22 staleState sampleFragments)).2.data[150]? = some 0 ∧
    (spookyhash_final sampleHeader (stream sampleHeader 11 22 staleState sampleFragments)).2
      ≠ stream sampleHeader 11 22 staleState sampleFragments := by
  decide

/-- C3, amended: on every context reached by `spookyhash_init` and any updates,
`spookyhash_final` leaves the total length, the buffered byte count `r`, the
twelve state words, the size of the buffer and the `r` buffered bytes as they
were; the buffer bytes from the end of the block that holds offset `r` onwards
are unchanged as well, and when the total length is below 192 the whole
context is unchanged. -/
theorem final_frame_reachable (H : Header) (seed1 seed2 : Nat) (s0 : spooky_state)
    (fragments : List (List Byte)) (hwf : s0.data.length = sc_buf_size)
    (hlen : fragments.flatten.length < 2 ^ 64) :
    (spookyhash_final H (stream H seed1 seed2 s0 fragments)).2.length
      = (stream H seed1 seed2 s0 fragments).length ∧
    (spookyhash_final H (stream H seed1 seed2 s0 fragments)).2.remainder
      = (stream H seed1 seed2 s0 fragments).remainder ∧
    (spookyhash_final H (stream H seed1 seed2 s0 fragments)).2.vars
      = (stream H seed1 seed2 s0 fragments).vars ∧
    (spookyhash_final H (stream H seed1 seed2 s0 fragments)).2.data.length
      = (stream H seed1 seed2 s0 fragments).data.length ∧
    (spookyhash_final H (stream H seed1 seed2 s0 fragments)).2.data.take
        (stream H seed1 seed2 s0 fragments).remainder
      = (stream H seed1 seed2 s0 fragments).data.take
        (stream H seed1 seed2 s0 fragments).remainder ∧
    (spookyhash_final H (stream H seed1 seed2 s0 fragments)).2.data.drop
        (96 * ((stream H seed1 seed2 s0 fragments).remainder / 96 + 1))
      = (stream H seed1 seed2 s0 fragments).data.drop
        (96 * ((stream H seed1 seed2 s0 fragments).remainder / 96 + 1)) ∧
    ((stream H seed1 seed2 s0 fragments).length < 192 →
      (spookyhash_final H (stream H seed1 seed2 s0 fragments)).2
        = stream H seed1 seed2 s0 fragments) :=
  final_frame H fragments.flatten seed1 seed2 _ (inv_stream H seed1 seed2 s0 fragments hwf hlen)

/-- Witness of the amended C3 on a run of four fragments, 300 bytes in all. -/
theorem final_frame_reachable_witness :
    staleState.data.length = sc_buf_size ∧ sampleFragments.flatten.length < 2 ^ 64 ∧
    (spookyhash_final sampleHeader
        (stream sampleHeader 11 22 staleState sampleFragments)).2.vars
      = (stream sampleHeader 11 22 staleState sampleFragments).vars :=
  ⟨by decide, by decide,
    (final_frame_reachable sampleHeader 11 22 staleState sampleFragments (by decide)
      (by decide)).2.2.1⟩

/-- C4: for every message and seed pair `spookyhash128` returns, when the length
is below 192, the result of `spookyhash_short`, which is the Short-Path Hasher
run from `(seed1, seed2, sc_const, sc_const)`; and otherwise words 0 and 1 of
the reference state: seeds and constant replicated into twelve words, the Block
Mixer applied to the `N / 96` consecutive blocks in order, the Long Finalizer
applied to the last `N % 96` bytes padded with zeros and tagged in byte 95. -/
theorem oneshot_matches_reference (H : Header) (M : List Byte) (seed1 seed2 : Nat) :
    spookyhash128 H M M.length seed1 seed2
      = (if M.length < 192 then spookyhash_short H M M.length seed1 seed2
          else oneshot_reference H M seed1 seed2) ∧
    spookyhash_short H M M.length seed1 seed2
      = short_reference H M M.length ⟨seed1, seed2, H.sc_const, H.sc_const⟩ := by
  refine ⟨?_, spookyhash_short_eq H M M.length seed1 seed2⟩
  by_cases h : M.length < 192
  · rw [if_pos h, spookyhash128_short H M _ _ _ h]
  · rw [if_neg h, spookyhash128_long H M _ _ (by omega)]

/-- C5: for every length `N` (in particular below 192) `spookyhash_short` reaches
its tail step with the pointer at offset `N - N % 16`, with `N % 16` bytes left
to pack, and with the variables obtained by absorbing the `N / 32` complete
groups at offsets `0, 32, 64, ...` and then, exactly when `N % 32 ≥ 16`, one
pair at offset `32 * (N / 32)`; for a length `n` of at most 15 no group is
absorbed and the tail is the whole message. -/
theorem short_coverage (H : Header) (m : List Byte) (N hash1 hash2 : Nat) (n : Fin 16) :
    short_body H m N hash1 hash2
      = (N - N % 16, N % 16,
          short_absorbed H m N ⟨hash1, hash2, H.sc_const, H.sc_const⟩) ∧
    short_absorbed H m N ⟨hash1, hash2, H.sc_const, H.sc_const⟩
      = (if N % 32 ≥ 16 then
          absorb_pair H m (32 * (N / 32))
            (absorb_groups H m ⟨hash1, hash2, H.sc_const, H.sc_const⟩ (N / 32))
        else absorb_groups H m ⟨hash1, hash2, H.sc_const, H.sc_const⟩ (N / 32)) ∧
    short_body H m n.val hash1 hash2
      = (0, n.val, ⟨hash1, hash2, H.sc_const, H.sc_const⟩) := by
  refine ⟨short_body_eq H m N hash1 hash2, rfl, ?_⟩
  have hn := n.isLt
  have h15 : ¬ (n.val > 15) := by omega
  unfold short_body
  rw [if_neg h15]
  refine Prod.ext rfl (Prod.ext ?_ rfl)
  show n.val % 32 = n.val
  omega

/-- C6: for a tail of `r` bytes at offset `p`, `1 ≤ r ≤ 15`, the length injection
and the switch of `spookyhash_short` add to `c` the little-endian value of the
first `min r 8` tail bytes and to `d` the value `length << 56` and the
little-endian value of the tail bytes from the eighth on; for `r = 0` they add
`sc_const` to `c` and `length << 56` and `sc_const` to `d`; all modulo
`2 ^ 64`, with `a` and `b` untouched. -/
theorem tail_packing (H : Header) (m : List Byte) (p length r : Nat) (s : ABCD)
    (h1 : 1 ≤ r) (h15 : r ≤ 15) :
    short_tail H m p length r s
      = ⟨s.a, s.b, (s.c + leValue ((slice m p r).take 8)) % 2 ^ 64,
          (s.d + shl64 length 56 + leValue ((slice m p r).drop 8)) % 2 ^ 64⟩ ∧
    short_tail H m p length 0 s
      = ⟨s.a, s.b, (s.c + H.sc_const) % 2 ^ 64,
          (s.d + shl64 length 56 + H.sc_const) % 2 ^ 64⟩ :=
  ⟨short_tail_pos H m p length r s h1 h15, short_tail_zero H m p length s⟩

/-- Witness of C6 on a tail of eleven bytes. -/
theorem tail_packing_witness :
    1 ≤ 11 ∧ 11 ≤ 15 ∧
    short_tail sampleHeader [1, 2, 3, 4, 5, 6, 7, 8, 9, 10, 11] 0 11 11 ⟨1, 2, 3, 4⟩
      = ⟨1, 2, (3 + 0x0807060504030201) % 2 ^ 64,
          (4 + shl64 11 56 + 0x0b0a09) % 2 ^ 64⟩ :=
  ⟨by decide, by decide,
    (tail_packing sampleHeader [1, 2, 3, 4, 5, 6, 7, 8, 9, 10, 11] 0 11 11 ⟨1, 2, 3, 4⟩
      (by decide) (by decide)).1⟩

/-- C7: after `spookyhash_init` and any updates whose fragments total less than
`2 ^ 64` bytes (so after the init and after every update of a run), the
buffered byte count is below 192 and the stored total length is the sum of the
lengths of the fragments passed so far. -/
theorem counter_invariant (H : Header) (seed1 seed2 : Nat) (s0 : spooky_state)
    (fragments : List (List Byte)) (hwf : s0.data.length = sc_buf_size)
    (hlen : fragments.flatten.length < 2 ^ 64) :
    (stream H seed1 seed2 s0 fragments).remainder < 192 ∧
    (stream H seed1 seed2 s0 fragments).length = (fragments.map List.length).sum := by
  have hinv := inv_stream H seed1 seed2 s0 fragments hwf hlen
  exact ⟨hinv.remainder_lt, by rw [hinv.length_eq, List.length_flatten]⟩

/-- Witness of C7 on a run of four fragments, 300 bytes in all. -/
theorem counter_invariant_witness :
    staleState.data.length = sc_buf_size ∧ sampleFragments.flatten.length < 2 ^ 64 ∧
    (stream sampleHeader 11 22 staleState sampleFragments).remainder < 192 ∧
    (stream sampleHeader 11 22 staleState sampleFragments).length
      = (sampleFragments.map List.length).sum :=
  ⟨by decide, by decide,
    counter_invariant sampleHeader 11 22 staleState sampleFragments (by decide) (by decide)⟩

/-- C8: on every context reached by `spookyhash_init` and updates with fragments
that concatenate to `M`, with `r` the buffered byte count: `r ≤ |M|`, the first
`r` bytes of the buffer are the last `r` bytes of `M`, the absorbed count
`|M| - r` is a multiple of 96, and when `|M| ≥ 192` the twelve state words are
the Block Mixer applied to the first `(|M| - r) / 96` consecutive blocks of `M`,
in order, from the seed-replicated initial state. -/
theorem buffer_invariant (H : Header) (seed1 seed2 : Nat) (s0 : spooky_state)
    (fragments : List (List Byte)) (hwf : s0.data.length = sc_buf_size)
    (hlen : fragments.flatten.length < 2 ^ 64) :
    (stream H seed1 seed2 s0 fragments).remainder ≤ fragments.flatten.length ∧
    (stream H seed1 seed2 s0 fragments).data.take (stream H seed1 seed2 s0 fragments).remainder
      = fragments.flatten.drop
          (fragments.flatten.length - (stream H seed1 seed2 s0 fragments).remainder) ∧
    96 ∣ fragments.flatten.length - (stream H seed1 seed2 s0 fragments).remainder ∧
    (192 ≤ fragments.flatten.length →
      (stream H seed1 seed2 s0 fragments).vars
        = mix_blocks H fragments.flatten (initial_mix_state H seed1 seed2)
            ((fragments.flatten.length - (stream H seed1 seed2 s0 fragments).remainder) / 96)) := by
  have hinv := inv_stream H seed1 seed2 s0 fragments hwf hlen
  exact ⟨hinv.remainder_le, hinv.buffered, hinv.absorbed, hinv.promoted⟩

/-- Witness of C8 on a run of four fragments, 300 bytes in all. -/
theorem buffer_invariant_witness :
    staleState.data.length = sc_buf_size ∧ sampleFragments.flatten.length < 2 ^ 64 ∧
    192 ≤ sampleFragments.flatten.length ∧
    (stream sampleHeader 11 22 staleState sampleFragments).vars
      = mix_blocks sampleHeader sampleFragments.flatten (initial_mix_state sampleHeader 11 22)
          ((sampleFragments.flatten.length
            - (stream sampleHeader 11 22 staleState sampleFragments).remainder) / 96) :=
  ⟨by decide, by decide, by decide,
    (buffer_invariant sampleHeader 11 22 staleState sampleFragments (by decide)
      (by decide)).2.2.2 (by decide)⟩

/-- C9: in a run of updates after `spookyhash_init` (total below `2 ^ 64` bytes),
an update executes the seed-replicating initialisation exactly when it is the
first update to take the mixing path, so at most once; the total length is
below 192 exactly when no update has mixed a block, in which case state words 0
and 1 still hold the seeds and the buffered byte count is the total length.
The two guards are read off `spookyhash_update` itself: for every update of the
run, on the context `s` reached before it with `r` bytes buffered and for its
fragment `F`, the entry of the trace is the pair of guards on `s` and `F`; the
mixing path is taken exactly when `r + |F| ≥ 192`; an update off the mixing
path leaves the twelve state words alone; an update that executes the
initialisation leaves them equal to the Block Mixer applied to the
`(r + |F|) / 96` blocks of the buffered bytes followed by `F`, started from the
seeds of `spookyhash_init` replicated; and a later update on the mixing path
leaves them equal to the same mixing started from the stored words. -/
theorem promotion_once (H : Header) (seed1 seed2 : Nat) (s0 : spooky_state)
    (fragments : List (List Byte)) (hwf : s0.data.length = sc_buf_size)
    (hlen : fragments.flatten.length < 2 ^ 64) :
    (∀ (i : Nat) (x : Bool × Bool),
      (stream_trace H (spookyhash_init seed1 seed2 s0) fragments)[i]? = some x →
        (x.2 = true ↔ (x.1 = true ∧ ∀ (j : Nat) (y : Bool × Bool), j < i →
          (stream_trace H (spookyhash_init seed1 seed2 s0) fragments)[j]? = some y →
            y.1 = false))) ∧
    ((stream H seed1 seed2 s0 fragments).length < 192 ↔
      ∀ x ∈ stream_trace H (spookyhash_init seed1 seed2 s0) fragments, x.1 = false) ∧
    ((stream H seed1 seed2 s0 fragments).length < 192 →
      (stream H seed1 seed2 s0 fragments).vars.h0 = seed1 ∧
      (stream H seed1 seed2 s0 fragments).vars.h1 = seed2 ∧
      (stream H seed1 seed2 s0 fragments).remainder
        = (stream H seed1 seed2 s0 fragments).length) ∧
    (∀ (pre : List (List Byte)) (F : List Byte) (post : List (List Byte)),
      fragments = pre ++ F :: post →
      (stream_trace H (spookyhash_init seed1 seed2 s0) fragments)[pre.length]?
        = some (takes_mix_path (stream H seed1 seed2 s0 pre) F,
            promotes (stream H seed1 seed2 s0 pre) F) ∧
      (takes_mix_path (stream H seed1 seed2 s0 pre) F = true ↔
        192 ≤ (stream H seed1 seed2 s0 pre).remainder + F.length) ∧
      (takes_mix_path (stream H seed1 seed2 s0 pre) F = false →
        (spookyhash_update H F (stream H seed1 seed2 s0 pre)).vars
          = (stream H seed1 seed2 s0 pre).vars) ∧
      (promotes (stream H seed1 seed2 s0 pre) F = true →
        (spookyhash_update H F (stream H seed1 seed2 s0 pre)).vars
          = mix_blocks H
              ((stream H seed1 seed2 s0 pre).data.take (stream H seed1 seed2 s0 pre).remainder
                ++ F)
              (seed_vars H seed1 seed2)
              (((stream H seed1 seed2 s0 pre).remainder + F.length) / 96)) ∧
      (takes_mix_path (stream H seed1 seed2 s0 pre) F = true →
        promotes (stream H seed1 seed2 s0 pre) F = false →
        (spookyhash_update H F (stream H seed1 seed2 s0 pre)).vars
          = mix_blocks H
              ((stream H seed1 seed2 s0 pre).data.take (stream H seed1 seed2 s0 pre).remainder
                ++ F)
              (stream H seed1 seed2 s0 pre).vars
              (((stream H seed1 seed2 s0 pre).remainder + F.length) / 96))) := by
  have hinit := inv_init H seed1 seed2 s0 hwf
  have hinv := inv_stream H seed1 seed2 s0 fragments hwf hlen
  have hlen0 : ([] : List Byte).length + fragments.flatten.length < 2 ^ 64 := by
    simpa using hlen
  refine ⟨?_, ?_, ?_, ?_⟩
  · intro i x hx
    have := trace_promotes H seed1 seed2 fragments [] _ hinit hlen0 i x hx
    simpa using this
  · have := trace_unmixed H seed1 seed2 fragments [] _ hinit hlen0
    rw [hinv.length_eq]
    simpa using this
  · intro h
    rw [hinv.length_eq] at h ⊢
    obtain ⟨h1, h2, h3⟩ := hinv.unpromoted h
    exact ⟨h2, h3, h1⟩
  · intro pre F post hsplit
    have hfl : fragments.flatten.length
        = pre.flatten.length + (F.length + post.flatten.length) := by
      rw [hsplit, List.flatten_append, List.length_append, List.flatten_cons,
        List.length_append]
    have hpre := inv_stream H seed1 seed2 s0 pre hwf (by omega)
    have hd := hpre.data_length
    have hr := hpre.remainder_lt
    have hrl := hpre.remainder_le
    have hl := hpre.length_eq
    have hmix := takes_mix_path_iff H seed1 seed2 pre.flatten F _ hpre (by omega)
    have hprom := promotes_iff H seed1 seed2 pre.flatten F _ hpre
    refine ⟨?_, ?_, ?_, ?_, ?_⟩
    · rw [hsplit]
      exact stream_trace_split H pre F post (spookyhash_init seed1 seed2 s0)
    · rw [hmix]; omega
    · exact update_vars_buffer H F _
    · intro hp
      obtain ⟨hm, hshort⟩ := hprom.mp hp
      obtain ⟨_, h0, h1⟩ := hpre.unpromoted hshort
      have hlt : (stream H seed1 seed2 s0 pre).length < sc_buf_size := by
        rw [hl]; exact hshort
      rw [update_vars_mix H F _ hd hr (by omega) (hmix.mp hm), if_pos hlt, h0, h1]
    · intro hm hp
      have hlong : ¬ (stream H seed1 seed2 s0 pre).length < sc_buf_size := by
        intro hc
        rw [hl] at hc
        rw [hprom.mpr ⟨hm, hc⟩] at hp
        cases hp
      rw [update_vars_mix H F _ hd hr (by omega) (hmix.mp hm), if_neg hlong]

/-- Witness of C9 on a run of four fragments, 300 bytes in all: the third
update, entered with 100 bytes buffered, executes the initialisation. -/
theorem promotion_once_witness :
    staleState.data.length = sc_buf_size ∧ sampleFragments.flatten.length < 2 ^ 64 ∧
    sampleFragments
      = [List.replicate 100 1, []] ++ List.replicate 150 2 :: [List.replicate 50 3] ∧
    promotes (stream sampleHeader 11 22 staleState [List.replicate 100 1, []])
      (List.replicate 150 2) = true ∧
    (spookyhash_update sampleHeader (List.replicate 150 2)
        (stream sampleHeader 11 22 staleState [List.replicate 100 1, []])).vars
      = mix_blocks sampleHeader
          ((stream sampleHeader 11 22 staleState [List.replicate 100 1, []]).data.take
              (stream sampleHeader 11 22 staleState [List.replicate 100 1, []]).remainder
            ++ List.replicate 150 2)
          (seed_vars sampleHeader 11 22)
          (((stream sampleHeader 11 22 staleState [List.replicate 100 1, []]).remainder
            + (List.replicate 150 (2 : Byte)).length) / 96) :=
  ⟨by decide, by decide, by decide, by decide,
    ((promotion_once sampleHeader 11 22 staleState sampleFragments (by decide)
      (by decide)).2.2.2 [List.replicate 100 1, []] (List.replicate 150 2)
        [List.replicate 50 3] (by decide)).2.2.2.1 (by decide)⟩

/-- C10: for every byte sequence (the empty one included) and every seed pair,
`spookyhash128` with every read of the message checked against the `N` bytes of
the message, and every loop required to finish, produces a digest, the one the
unchecked code computes; the same holds for `spookyhash_short` on its own. -/
theorem oneshot_reads_in_bounds (H : Header) (M : List Byte) (seed1 seed2 : Nat) :
    spookyhash128_checked H M M.length seed1 seed2
      = some (spookyhash128 H M M.length seed1 seed2) ∧
    spookyhash_short_checked H M M.length seed1 seed2
      = some (spookyhash_short H M M.length seed1 seed2) :=
  ⟨spookyhash128_checked_eq H M seed1 seed2,
    spookyhash_short_checked_eq H M M.length seed1 seed2 (Nat.le_refl _)⟩

/-! ## Runs with finals interleaved -/

theorem inv_run (H : Header) (seed1 seed2 : Nat) :
    ∀ (ops : List Op) (M : List Byte) (s : spooky_state),
      Inv H seed1 seed2 M s → M.length + (fragments_of ops).flatten.length < 2 ^ 64 →
      Inv H seed1 seed2 (M ++ (fragments_of ops).flatten) (run_ops H s ops).1 ∧
      (run_ops H s ops).2 = expected_digests H seed1 seed2 M ops := by
  intro ops
  induction ops with
  | nil => intro M s hinv _; simpa [run_ops, fragments_of, expected_digests] using hinv
  | cons op rest ih =>
    intro M s hinv hlen
    cases op with
    | update f =>
      simp only [fragments_of, List.flatten_cons, List.length_append] at hlen
      have h1 := inv_update H seed1 seed2 M f s hinv (by omega)
      have h2 := ih (M ++ f) (spookyhash_update H f s) h1 (by rw [List.length_append]; omega)
      simp only [run_ops, fragments_of, expected_digests, List.flatten_cons]
      rw [← List.append_assoc]
      exact h2
    | final =>
      simp only [fragments_of] at hlen
      have h1 := final_preserves_inv H M seed1 seed2 s hinv
      have h2 := ih M (spookyhash_final H s).2 h1 hlen
      simp only [run_ops, fragments_of, expected_digests]
      exact ⟨h2.1, by rw [h2.2, final_eq_oneshot H M seed1 seed2 s hinv]⟩

theorem inv_run_init (H : Header) (seed1 seed2 : Nat) (s0 : spooky_state) (ops : List Op)
    (hwf : s0.data.length = sc_buf_size)
    (hlen : (fragments_of ops).flatten.length < 2 ^ 64) :
    Inv H seed1 seed2 (fragments_of ops).flatten
        (run_ops H (spookyhash_init seed1 seed2 s0) ops).1 ∧
      (run_ops H (spookyhash_init seed1 seed2 s0) ops).2
        = expected_digests H seed1 seed2 [] ops := by
  have := inv_run H seed1 seed2 ops [] _ (inv_init H seed1 seed2 s0 hwf) (by simpa using hlen)
  simpa using this

/-! ## The padded tail block -/

theorem leValue_drop8_lt (m : List Byte) (p r : Nat) (h15 : r ≤ 15) :
    leValue ((slice m p r).drop 8) < 2 ^ 56 := by
  have h := leValue_lt ((slice m p r).drop 8)
  have hl : ((slice m p r).drop 8).length ≤ 7 := by
    rw [List.length_drop, slice_length]; omega
  have hp : 256 ^ ((slice m p r).drop 8).length ≤ 256 ^ 7 :=
    Nat.pow_le_pow_right (by decide) hl
  have e : (256 : Nat) ^ 7 = 2 ^ 56 := by norm_num
  omega

theorem short_tail_d (H : Header) (m : List Byte) (N : Nat) (s : ABCD) (h0 : N % 16 ≠ 0) :
    (short_tail H m (N - N % 16) N (N % 16) s).d
      = (s.d + shl64 N 56 + leValue ((slice m (N - N % 16) (N % 16)).drop 8)) % 2 ^ 64 := by
  rw [short_tail_pos H m _ N _ s (by omega) (by omega)]

theorem d_contribution_eq (H : Header) (m : List Byte) (N : Nat) (h192 : N < 192)
    (h0 : N % 16 ≠ 0) :
    d_contribution H m N
      = N * 2 ^ 56 + leValue ((slice m (N - N % 16) (N % 16)).drop 8) := by
  have hb := leValue_drop8_lt m (N - N % 16) (N % 16) (by omega)
  unfold d_contribution
  rw [short_tail_d H m N _ h0]
  simp only [shl64]
  omega

theorem short_tail_adds (H : Header) (m : List Byte) (N : Nat) (s : ABCD) (h192 : N < 192)
    (h0 : N % 16 ≠ 0) :
    (short_tail H m (N - N % 16) N (N % 16) s).d = (s.d + d_contribution H m N) % 2 ^ 64 := by
  have hb := leValue_drop8_lt m (N - N % 16) (N % 16) (by omega)
  rw [d_contribution_eq H m N h192 h0, short_tail_d H m N s h0]
  simp only [shl64]
  omega

/-! ## The buffering path of `spookyhash_update` -/

theorem update_buffer_eq (H : Header) (seed1 seed2 : Nat) (M F : List Byte) (s : spooky_state)
    (hinv : Inv H seed1 seed2 M s) (hlen : M.length + F.length < 2 ^ 64)
    (hlt : s.remainder + F.length < 192) :
    spookyhash_update H F s = { s with
      data := memcpy s.data s.remainder F
      length := s.length + F.length
      remainder := s.remainder + F.length } := by
  have hl := hinv.length_eq
  have hnl : (F.length + s.remainder) % 2 ^ 64 = F.length + s.remainder := by omega
  have hlt2 : F.length + s.remainder < 192 := by omega
  unfold spookyhash_update
  simp only [hnl, sc_buf_size, sc_block_size, sc_num_vars, hlt2, if_true,
    slice_zero_of_length_le F F.length (Nat.le_refl _)]
  congr 1 <;> omega

theorem memcpy_slice (dst src : List Byte) (off : Nat) (h : off ≤ dst.length) :
    slice (memcpy dst off src) off src.length = src := by
  unfold memcpy slice
  rw [List.append_assoc, List.drop_left' (by simp; omega), List.take_left']
  rfl

theorem memcpy_drop (dst src : List Byte) (off : Nat) (h : off ≤ dst.length) :
    (memcpy dst off src).drop (off + src.length) = dst.drop (off + src.length) := by
  unfold memcpy
  rw [List.drop_left' (by simp; omega)]

theorem update_empty (H : Header) (seed1 seed2 : Nat) (M : List Byte) (s : spooky_state)
    (hinv : Inv H seed1 seed2 M s) (hlen : M.length < 2 ^ 64) :
    spookyhash_update H [] s = s := by
  have hr := hinv.remainder_lt
  rw [update_buffer_eq H seed1 seed2 M [] s hinv (by simpa using hlen) (by simpa using hr)]
  have hd : memcpy s.data s.remainder [] = s.data := by
    simp [memcpy]
  simp [hd]

theorem update_buffer_frame (H : Header) (seed1 seed2 : Nat) (M F : List Byte) (s : spooky_state)
    (hinv : Inv H seed1 seed2 M s) (hlen : M.length + F.length < 2 ^ 64)
    (hlt : s.remainder + F.length < 192) :
    (spookyhash_update H F s).vars = s.vars ∧
    (spookyhash_update H F s).data.length = s.data.length ∧
    (spookyhash_update H F s).data.take s.remainder = s.data.take s.remainder ∧
    slice (spookyhash_update H F s).data s.remainder F.length = F ∧
    (spookyhash_update H F s).data.drop (s.remainder + F.length)
      = s.data.drop (s.remainder + F.length) ∧
    (spookyhash_update H F s).remainder = s.remainder + F.length ∧
    (spookyhash_update H F s).length = s.length + F.length := by
  have hd := hinv.data_length
  rw [update_buffer_eq H seed1 seed2 M F s hinv hlen hlt]
  refine ⟨rfl, ?_, ?_, ?_, ?_, rfl, rfl⟩
  · exact memcpy_length _ _ _ (by omega)
  · exact memcpy_take_left _ _ _ _ (by omega) (Nat.le_refl _)
  · exact memcpy_slice _ _ _ (by omega)
  · exact memcpy_drop _ _ _ (by omega)

/-! ## Bounds-checked streaming succeeds -/

theorem mix_loop_checked_from (H : Header) (m : List Byte) :
    ∀ (n fuel p : Nat) (h : Vars), n ≤ fuel → p + 96 * n ≤ m.length →
      mix_loop_checked H m (p + 96 * n) fuel p h
        = some (mix_loop H m (p + 96 * n) fuel p h) := by
  intro n
  induction n with
  | zero =>
    intro fuel p h _ _
    cases fuel <;> simp [mix_loop_checked, mix_loop]
  | succ n ih =>
    intro fuel p h hf hm
    cases fuel with
    | zero => omega
    | succ f =>
      have hlt : p < p + 96 * (n + 1) := by omega
      have := ih f (p + 8 * sc_num_vars)
      rw [show p + 8 * sc_num_vars + 96 * n = p + 96 * (n + 1) by
        simp only [sc_num_vars]; omega] at this
      simp only [mix_loop_checked, mix_loop, hlt, if_true,
        loadBlock_checked_eq m p (by omega), Option.bind_eq_bind, Option.some_bind,
        this _ (by omega) hm]

theorem memcpy_checked_eq (dst src : List Byte) (off : Nat) (h : off + src.length ≤ 192) :
    memcpy_checked dst off src = some (memcpy dst off src) := by
  have h2 : off + src.length ≤ sc_buf_size := h
  simp [memcpy_checked, h2]

theorem loadBlock_written_eq (data : List Byte) (written off : Nat) (h : off + 96 ≤ written) :
    loadBlock_written data written off = some (loadBlock data off) := by
  have h2 : off + 8 * sc_num_vars ≤ written := h
  simp [loadBlock_written, h2]

theorem slice_checked_eq (m : List Byte) (off len : Nat) (h : off + len ≤ m.length) :
    slice_checked m off len = some (slice m off len) := by
  simp [slice_checked, h]

theorem update_flush_checked_eq (H : Header) (F : List Byte) (s : spooky_state) (h : Vars)
    (hr : s.remainder < 192) (hge : 192 ≤ F.length + s.remainder) :
    update_flush_checked H F s h = some (update_flush H F s h) := by
  unfold update_flush_checked update_flush
  by_cases hr0 : s.remainder = 0
  · simp [hr0]
  · have hpfx : (sc_buf_size - s.remainder) % 256 = 192 - s.remainder := by
      simp only [sc_buf_size, sc_block_size, sc_num_vars]; omega
    have hsl : (slice F 0 (192 - s.remainder)).length = 192 - s.remainder :=
      slice_length_of_le F 0 _ (by omega)
    simp only [ne_eq, hr0, not_false_eq_true, if_true, hpfx, Option.bind_eq_bind,
      slice_checked_eq F 0 (192 - s.remainder) (by omega), Option.some_bind,
      memcpy_checked_eq s.data (slice F 0 (192 - s.remainder)) s.remainder (by omega),
      loadBlock_written_eq _ (s.remainder + (192 - s.remainder)) 0 (by omega),
      loadBlock_written_eq _ (s.remainder + (192 - s.remainder)) (8 * sc_num_vars)
        (by simp only [sc_num_vars]; omega), Option.pure_def]

theorem update_flush_ptr (H : Header) (F : List Byte) (s : spooky_state) (h : Vars)
    (hr : s.remainder < 192) (hge : 192 ≤ F.length + s.remainder) (hF : F.length < 2 ^ 64) :
    (update_flush H F s h).2.2.1 + (update_flush H F s h).2.2.2 = F.length := by
  unfold update_flush
  by_cases hr0 : s.remainder = 0
  · simp [hr0]
  · have hpfx : (sc_buf_size - s.remainder) % 256 = 192 - s.remainder := by
      simp only [sc_buf_size, sc_block_size, sc_num_vars]; omega
    simp only [ne_eq, hr0, not_false_eq_true, if_true, hpfx]
    omega

theorem update_checked_eq (H : Header) (seed1 seed2 : Nat) (M F : List Byte) (s : spooky_state)
    (hinv : Inv H seed1 seed2 M s) (hlen : M.length + F.length < 2 ^ 64) :
    spookyhash_update_checked H F s = some (spookyhash_update H F s) := by
  have hr := hinv.remainder_lt
  have hrl := hinv.remainder_le
  have hnl : (F.length + s.remainder) % 2 ^ 64 = F.length + s.remainder := by omega
  unfold spookyhash_update_checked spookyhash_update
  by_cases hlt : F.length + s.remainder < 192
  · have hlt2 : F.length + s.remainder < sc_buf_size := hlt
    simp only [hnl, hlt2, if_true, Option.bind_eq_bind,
      slice_checked_eq F 0 F.length (by omega), Option.some_bind, Option.pure_def,
      slice_zero_of_length_le F F.length (Nat.le_refl _),
      memcpy_checked_eq s.data F s.remainder (by omega)]
  · have hlt2 : ¬ (F.length + s.remainder < sc_buf_size) := hlt
    have hge : 192 ≤ F.length + s.remainder := by omega
    simp only [hnl, hlt2, if_false, Option.bind_eq_bind,
      update_flush_checked_eq H F s _ hr hge, Option.some_bind]
    generalize hf : update_flush H F s
      (if s.length < sc_buf_size then seed_vars H s.vars.h0 s.vars.h1 else s.vars) = f
    have hptr := update_flush_ptr H F s
      (if s.length < sc_buf_size then seed_vars H s.vars.h0 s.vars.h1 else s.vars) hr hge
      (by omega)
    rw [hf] at hptr
    have he : f.2.2.1 + 8 * ((f.2.2.2 / sc_block_size) * sc_num_vars)
        = f.2.2.1 + 96 * (f.2.2.2 / 96) := by
      simp only [sc_block_size, sc_num_vars]; omega
    have hrem : (f.2.2.2 - (f.2.2.1 + 96 * (f.2.2.2 / 96) - f.2.2.1)) % 256
        = f.2.2.2 % 96 := by omega
    have hsl : (slice F (f.2.2.1 + 96 * (f.2.2.2 / 96)) (f.2.2.2 % 96)).length ≤ 96 := by
      rw [slice_length]; omega
    simp only [he, hrem,
      mix_loop_checked_from H F (f.2.2.2 / 96) f.2.2.2 f.2.2.1 f.2.1 (Nat.div_le_self _ _)
        (by omega),
      slice_checked_eq F (f.2.2.1 + 96 * (f.2.2.2 / 96)) (f.2.2.2 % 96) (by omega),
      memcpy_checked_eq f.1 (slice F (f.2.2.1 + 96 * (f.2.2.2 / 96)) (f.2.2.2 % 96)) 0
        (by omega), Option.some_bind, Option.pure_def]

theorem final_checked_eq (H : Header) (seed1 seed2 : Nat) (M : List Byte) (s : spooky_state)
    (hinv : Inv H seed1 seed2 M s) :
    spookyhash_final_checked H s = some (spookyhash_final H s) := by
  have hr := hinv.remainder_lt
  have hd := hinv.data_length
  have hl := hinv.length_eq
  unfold spookyhash_final_checked spookyhash_final
  by_cases hlt : s.length < sc_buf_size
  · have h192 : M.length < 192 := by rw [← hl]; exact hlt
    have h1 := (hinv.unpromoted h192).1
    have hN : s.length = s.remainder := by omega
    have htl : (s.data.take s.remainder).length = s.remainder := by simp; omega
    have hc : spookyhash_short H (s.data.take s.remainder) s.length s.vars.h0 s.vars.h1
        = spookyhash_short H s.data s.length s.vars.h0 s.vars.h1 :=
      spookyhash_short_congr H _ _ _ _ _ (slice_take s.data s.remainder 0 s.length (by omega))
    simp only [hlt, if_true, Option.bind_eq_bind,
      spookyhash_short_checked_eq H (s.data.take s.remainder) s.length _ _ (by omega),
      Option.some_bind, Option.pure_def, hc]
  · simp only [hlt, if_false, final_first_checked]
    by_cases h96 : s.remainder ≥ sc_block_size
    · have h96b : 96 ≤ s.remainder := h96
      have e1 : (s.remainder - sc_block_size) % 256 = s.remainder - 96 := by
        simp only [sc_block_size, sc_num_vars]; omega
      have e2 : sc_block_size - (s.remainder - 96) = 96 - (s.remainder - 96) := rfl
      simp only [h96, if_true, Option.bind_eq_bind, Option.pure_def, e1,
        loadBlock_written_eq s.data s.remainder 0 (by omega), Option.some_bind, memset]
      rw [memcpy_checked_eq _ _ _ (by
        rw [List.length_replicate, e2]; simp only [sc_num_vars]; omega)]
      simp only [Option.some_bind, store_checked]
      rw [if_pos (by simp only [sc_buf_size, sc_block_size, sc_num_vars]; omega)]
      simp only [Option.some_bind]
      rw [loadBlock_written_eq _ _ _ (by rw [e2]; simp only [sc_num_vars]; omega)]
      rfl
    · have h96b : s.remainder < 96 := by
        simp only [sc_block_size, sc_num_vars] at h96; omega
      have e2 : sc_block_size - s.remainder = 96 - s.remainder := rfl
      simp only [h96, if_false, Option.bind_eq_bind, Option.pure_def, Option.some_bind, memset]
      rw [memcpy_checked_eq _ _ _ (by rw [List.length_replicate, e2]; omega)]
      simp only [Option.some_bind, store_checked]
      rw [if_pos (by simp only [sc_buf_size, sc_block_size, sc_num_vars]; omega)]
      simp only [Option.some_bind]
      rw [loadBlock_written_eq _ _ _ (by rw [e2]; omega)]
      rfl

/-! ## Narrowings -/

theorem update_narrowings_eq (F : List Byte) (s : spooky_state) (hr : s.remainder < 192)
    (hF : F.length + s.remainder < 2 ^ 64) :
    update_narrowings F s
      = (if F.length + s.remainder < 192 then [F.length + s.remainder]
          else if s.remainder ≠ 0 then [192 - s.remainder, (F.length - (192 - s.remainder)) % 96]
          else [F.length % 96]) := by
  have hnl : (F.length + s.remainder) % 2 ^ 64 = F.length + s.remainder := by omega
  unfold update_narrowings
  simp only [hnl, sc_buf_size, sc_block_size, sc_num_vars, Nat.reduceMul]
  by_cases hlt : F.length + s.remainder < 192
  · rw [if_pos hlt, if_pos hlt]
  · rw [if_neg hlt, if_neg hlt]
    by_cases hr0 : s.remainder = 0
    · simp only [hr0, ne_eq, not_true_eq_false, if_false, List.nil_append, List.cons.injEq,
        and_true]
      omega
    · simp only [ne_eq, hr0, not_false_eq_true, if_true, List.singleton_append,
        List.cons.injEq, and_true, true_and]
      omega

theorem final_narrowings_lt (s : spooky_state) (hr : s.remainder < 192) :
    ∀ v ∈ final_narrowings s, v < 96 := by
  intro v hv
  unfold final_narrowings at hv
  simp only [sc_buf_size, sc_block_size, sc_num_vars, Nat.reduceMul] at hv
  split at hv
  · simp at hv
  · split at hv
    · simp only [List.mem_cons, List.mem_singleton, List.not_mem_nil, or_false] at hv
      omega
    · simp only [List.mem_singleton] at hv
      omega

theorem oneshot_narrowings_lt (N : Nat) : ∀ v ∈ oneshot_narrowings N, v < 96 := by
  intro v hv
  unfold oneshot_narrowings at hv
  simp only [sc_buf_size, sc_block_size, sc_num_vars, Nat.reduceMul] at hv
  split at hv
  · simp at hv
  · simp only [List.mem_singleton] at hv
    omega

theorem update_narrowings_lt (F : List Byte) (s : spooky_state) (hr : s.remainder < 192)
    (hF : F.length + s.remainder < 2 ^ 64) : ∀ v ∈ update_narrowings F s, v < 192 := by
  intro v hv
  rw [update_narrowings_eq F s hr hF] at hv
  split at hv
  · simp only [List.mem_singleton] at hv
    omega
  · split at hv
    · simp only [List.mem_cons, List.mem_singleton, List.not_mem_nil, or_false] at hv
      omega
    · simp only [List.mem_singleton] at hv
      omega

/-- C11: for every message, `spookyhash64_s` returns the first word of
`spookyhash128` started from the two default seeds, and `spookyhash32_s`
returns the low 32 bits of what `spookyhash64_s` returns. -/
theorem projection_consistency (H : Header) (D : DefaultSeeds) (M : List Byte) :
    spookyhash64_s H D M M.length
      = (spookyhash128 H M M.length D.ur_hash_seed_1 D.ur_hash_seed_2).1 ∧
    spookyhash32_s H D M M.length = spookyhash64_s H D M M.length % 2 ^ 32 :=
  ⟨rfl, rfl⟩

/-- C12: in every run of updates and finals after `spookyhash_init` (finals at
arbitrary points, also before the first update; fragments totalling less than
`2 ^ 64` bytes, the range of the `size_t` length of `spookyhash128`), each
`spookyhash_final` returns `spookyhash128` of the concatenation of the
fragments passed to `spookyhash_update` before it; and whatever calls follow,
their results are those obtained after the same updates without any final. -/
theorem final_reports_everything (H : Header) (seed1 seed2 : Nat) (s0 : spooky_state)
    (ops later : List Op) (hwf : s0.data.length = sc_buf_size)
    (hlen : (fragments_of ops).flatten.length + (fragments_of later).flatten.length < 2 ^ 64) :
    (run_ops H (spookyhash_init seed1 seed2 s0) ops).2
      = expected_digests H seed1 seed2 [] ops ∧
    (run_ops H (run_ops H (spookyhash_init seed1 seed2 s0) ops).1 later).2
      = (run_ops H (stream H seed1 seed2 s0 (fragments_of ops)) later).2 := by
  have h1 := inv_run_init H seed1 seed2 s0 ops hwf (by omega)
  have h2 := inv_stream H seed1 seed2 s0 (fragments_of ops) hwf (by omega)
  refine ⟨h1.2, ?_⟩
  rw [(inv_run H seed1 seed2 later _ _ h1.1 hlen).2, (inv_run H seed1 seed2 later _ _ h2 hlen).2]

/-- Witness of C12 on a run of six calls followed by one more final. -/
theorem final_reports_everything_witness :
    staleState.data.length = sc_buf_size ∧
    (fragments_of sampleOps).flatten.length + (fragments_of [Op.final]).flatten.length
      < 2 ^ 64 ∧
    (run_ops sampleHeader (spookyhash_init 11 22 staleState) sampleOps).2
      = expected_digests sampleHeader 11 22 [] sampleOps :=
  ⟨by decide, by decide,
    (final_reports_everything sampleHeader 11 22 staleState sampleOps [Op.final] (by decide)
      (by decide)).1⟩

/-- C14: for a message of `N < 192` bytes with `N % 16 ≠ 0`, what the length
injection and the tail switch of `spookyhash_short` add to `d` is a 64-bit
value whose top byte is `N` and whose low 56 bits are the little-endian value
of the tail bytes from the eighth on; so two such messages of different
lengths receive different `d` contributions. -/
theorem short_length_tag (H : Header) (m1 m2 : List Byte) (N1 N2 : Nat) (s : ABCD)
    (h1 : N1 < 192) (h1r : N1 % 16 ≠ 0) (h2 : N2 < 192) (h2r : N2 % 16 ≠ 0) :
    (short_tail H m1 (N1 - N1 % 16) N1 (N1 % 16) s).d
      = (s.d + d_contribution H m1 N1) % 2 ^ 64 ∧
    d_contribution H m1 N1 < 2 ^ 64 ∧
    d_contribution H m1 N1 / 2 ^ 56 = N1 ∧
    d_contribution H m1 N1 % 2 ^ 56
      = leValue ((slice m1 (N1 - N1 % 16) (N1 % 16)).drop 8) ∧
    (N1 ≠ N2 → d_contribution H m1 N1 ≠ d_contribution H m2 N2) := by
  have hb1 := leValue_drop8_lt m1 (N1 - N1 % 16) (N1 % 16) (by omega)
  have hb2 := leValue_drop8_lt m2 (N2 - N2 % 16) (N2 % 16) (by omega)
  have e1 := d_contribution_eq H m1 N1 h1 h1r
  have e2 := d_contribution_eq H m2 N2 h2 h2r
  refine ⟨short_tail_adds H m1 N1 s h1 h1r, ?_, ?_, ?_, ?_⟩
  · omega
  · omega
  · omega
  · intro hne; omega

/-- Witness of C14 on messages of 11 and 27 bytes. -/
theorem short_length_tag_witness :
    11 < 192 ∧ 11 % 16 ≠ 0 ∧ 27 < 192 ∧ 27 % 16 ≠ 0 ∧
    d_contribution sampleHeader (List.replicate 11 5) 11 / 2 ^ 56 = 11 ∧
    d_contribution sampleHeader (List.replicate 11 5) 11
      ≠ d_contribution sampleHeader (List.replicate 27 5) 27 :=
  ⟨by decide, by decide, by decide, by decide,
    (short_length_tag sampleHeader (List.replicate 11 5) (List.replicate 27 5) 11 27
      ⟨1, 2, 3, 4⟩ (by decide) (by decide) (by decide) (by decide)).2.2.1,
    (short_length_tag sampleHeader (List.replicate 11 5) (List.replicate 27 5) 11 27
      ⟨1, 2, 3, 4⟩ (by decide) (by decide) (by decide) (by decide)).2.2.2.2 (by decide)⟩

/-- C15: on every context reached by `spookyhash_init` and any updates and
finals, with `r` bytes buffered, an update with a fragment `F` such that
`r + |F| < 192` (the total staying below `2 ^ 64`) leaves the twelve state
words, the size of the buffer and the buffer bytes `[0, r)` unchanged, stores
`F` at `[r, r + |F|)`, leaves the bytes from `r + |F|` on unchanged, sets the
buffered byte count to `r + |F|` and adds `|F|` to the total length; an update
with the empty fragment returns the context unchanged. -/
theorem buffering_update_appends (H : Header) (seed1 seed2 : Nat) (s0 : spooky_state)
    (ops : List Op) (F : List Byte) (hwf : s0.data.length = sc_buf_size)
    (hlen : (fragments_of ops).flatten.length + F.length < 2 ^ 64)
    (hlt : (run_ops H (spookyhash_init seed1 seed2 s0) ops).1.remainder + F.length < 192) :
    ((spookyhash_update H F (run_ops H (spookyhash_init seed1 seed2 s0) ops).1).vars
        = (run_ops H (spookyhash_init seed1 seed2 s0) ops).1.vars ∧
      (spookyhash_update H F (run_ops H (spookyhash_init seed1 seed2 s0) ops).1).data.length
        = (run_ops H (spookyhash_init seed1 seed2 s0) ops).1.data.length ∧
      (spookyhash_update H F (run_ops H (spookyhash_init seed1 seed2 s0) ops).1).data.take
          (run_ops H (spookyhash_init seed1 seed2 s0) ops).1.remainder
        = (run_ops H (spookyhash_init seed1 seed2 s0) ops).1.data.take
          (run_ops H (spookyhash_init seed1 seed2 s0) ops).1.remainder ∧
      slice (spookyhash_update H F (run_ops H (spookyhash_init seed1 seed2 s0) ops).1).data
          (run_ops H (spookyhash_init seed1 seed2 s0) ops).1.remainder F.length = F ∧
      (spookyhash_update H F (run_ops H (spookyhash_init seed1 seed2 s0) ops).1).data.drop
          ((run_ops H (spookyhash_init seed1 seed2 s0) ops).1.remainder + F.length)
        = (run_ops H (spookyhash_init seed1 seed2 s0) ops).1.data.drop
          ((run_ops H (spookyhash_init seed1 seed2 s0) ops).1.remainder + F.length) ∧
      (spookyhash_update H F (run_ops H (spookyhash_init seed1 seed2 s0) ops).1).remainder
        = (run_ops H (spookyhash_init seed1 seed2 s0) ops).1.remainder + F.length ∧
      (spookyhash_update H F (run_ops H (spookyhash_init seed1 seed2 s0) ops).1).length
        = (run_ops H (spookyhash_init seed1 seed2 s0) ops).1.length + F.length) ∧
    spookyhash_update H [] (run_ops H (spookyhash_init seed1 seed2 s0) ops).1
      = (run_ops H (spookyhash_init seed1 seed2 s0) ops).1 := by
  have hinv := (inv_run_init H seed1 seed2 s0 ops hwf (by omega)).1
  exact ⟨update_buffer_frame H seed1 seed2 _ F _ hinv hlen hlt,
    update_empty H seed1 seed2 _ _ hinv (by omega)⟩

/-- Witness of C15: a fragment of 20 bytes after the run of six calls, which
leaves 108 bytes buffered. -/
theorem buffering_update_appends_witness :
    staleState.data.length = sc_buf_size ∧
    (fragments_of sampleOps).flatten.length + (List.replicate 20 (9 : Byte)).length < 2 ^ 64 ∧
    (run_ops sampleHeader (spookyhash_init 11 22 staleState) sampleOps).1.remainder
      + (List.replicate 20 (9 : Byte)).length < 192 ∧
    spookyhash_update sampleHeader []
        (run_ops sampleHeader (spookyhash_init 11 22 staleState) sampleOps).1
      = (run_ops sampleHeader (spookyhash_init 11 22 staleState) sampleOps).1 :=
  ⟨by decide, by decide, by decide,
    (buffering_update_appends sampleHeader 11 22 staleState sampleOps (List.replicate 20 9)
      (by decide) (by decide) (by decide)).2⟩

/-- C16: on every context reached by `spookyhash_init` and any updates and
finals, and for every fragment of `L` bytes (the total staying below `2 ^ 64`),
`spookyhash_update` and `spookyhash_final` with every access checked succeed
and compute what the unchecked code computes: writes into the buffer stay in
its 192 bytes, reads of the buffer stay in the bytes that hold data, reads of
the fragment stay in `[0, L)`; the buffered byte count is below 192, and when
the threshold is crossed with bytes buffered the top-off prefix is at most
`L`. -/
theorem streaming_stays_in_bounds (H : Header) (seed1 seed2 : Nat) (s0 : spooky_state)
    (ops : List Op) (F : List Byte) (hwf : s0.data.length = sc_buf_size)
    (hlen : (fragments_of ops).flatten.length + F.length < 2 ^ 64) :
    spookyhash_update_checked H F (run_ops H (spookyhash_init seed1 seed2 s0) ops).1
      = some (spookyhash_update H F (run_ops H (spookyhash_init seed1 seed2 s0) ops).1) ∧
    spookyhash_final_checked H (run_ops H (spookyhash_init seed1 seed2 s0) ops).1
      = some (spookyhash_final H (run_ops H (spookyhash_init seed1 seed2 s0) ops).1) ∧
    (run_ops H (spookyhash_init seed1 seed2 s0) ops).1.remainder < 192 ∧
    ((run_ops H (spookyhash_init seed1 seed2 s0) ops).1.remainder ≠ 0 →
      192 ≤ F.length + (run_ops H (spookyhash_init seed1 seed2 s0) ops).1.remainder →
      (sc_buf_size - (run_ops H (spookyhash_init seed1 seed2 s0) ops).1.remainder) % 256
        ≤ F.length) := by
  have hinv := (inv_run_init H seed1 seed2 s0 ops hwf (by omega)).1
  have hr := hinv.remainder_lt
  refine ⟨update_checked_eq H seed1 seed2 _ F _ hinv hlen,
    final_checked_eq H seed1 seed2 _ _ hinv, hr, ?_⟩
  intro h0 hge
  simp only [sc_buf_size, sc_block_size, sc_num_vars]
  omega

/-- Witness of C16: a fragment of 200 bytes after the run of six calls. -/
theorem streaming_stays_in_bounds_witness :
    staleState.data.length = sc_buf_size ∧
    (fragments_of sampleOps).flatten.length + (List.replicate 200 (9 : Byte)).length < 2 ^ 64 ∧
    spookyhash_update_checked sampleHeader (List.replicate 200 9)
        (run_ops sampleHeader (spookyhash_init 11 22 staleState) sampleOps).1
      = some (spookyhash_update sampleHeader (List.replicate 200 9)
          (run_ops sampleHeader (spookyhash_init 11 22 staleState) sampleOps).1) :=
  ⟨by decide, by decide,
    (streaming_stays_in_bounds sampleHeader 11 22 staleState sampleOps (List.replicate 200 9)
      (by decide) (by decide)).1⟩

/-- C17: on every context reached by `spookyhash_init` and any updates and
finals, and for every fragment (the total staying below `2 ^ 64`) and every
one-shot length `N`, each value stored into an 8-bit quantity is unchanged by
the narrowing: `new_length` on the buffering path, the prefix `192 - r`
(between 1 and 191) and the new remainder (the remaining length modulo 96) on
the mixing path, and the tags of `spookyhash_final` and `spookyhash128`, which
are below 96. -/
theorem narrowings_lossless (H : Header) (seed1 seed2 : Nat) (s0 : spooky_state)
    (ops : List Op) (F : List Byte) (N : Nat) (hwf : s0.data.length = sc_buf_size)
    (hlen : (fragments_of ops).flatten.length + F.length < 2 ^ 64) :
    (∀ v ∈ update_narrowings F (run_ops H (spookyhash_init seed1 seed2 s0) ops).1,
      v < 192 ∧ v % 256 = v) ∧
    update_narrowings F (run_ops H (spookyhash_init seed1 seed2 s0) ops).1
      = (if F.length + (run_ops H (spookyhash_init seed1 seed2 s0) ops).1.remainder < 192 then
          [F.length + (run_ops H (spookyhash_init seed1 seed2 s0) ops).1.remainder]
        else if (run_ops H (spookyhash_init seed1 seed2 s0) ops).1.remainder ≠ 0 then
          [192 - (run_ops H (spookyhash_init seed1 seed2 s0) ops).1.remainder,
            (F.length - (192 - (run_ops H (spookyhash_init seed1 seed2 s0) ops).1.remainder))
              % 96]
        else [F.length % 96]) ∧
    ((run_ops H (spookyhash_init seed1 seed2 s0) ops).1.remainder ≠ 0 →
      1 ≤ 192 - (run_ops H (spookyhash_init seed1 seed2 s0) ops).1.remainder ∧
      192 - (run_ops H (spookyhash_init seed1 seed2 s0) ops).1.remainder ≤ 191) ∧
    (∀ v ∈ final_narrowings (run_ops H (spookyhash_init seed1 seed2 s0) ops).1,
      v < 96 ∧ v % 256 = v) ∧
    (∀ v ∈ oneshot_narrowings N, v < 96 ∧ v % 256 = v) := by
  have hinv := (inv_run_init H seed1 seed2 s0 ops hwf (by omega)).1
  have hr := hinv.remainder_lt
  have hrl := hinv.remainder_le
  refine ⟨?_, update_narrowings_eq F _ hr (by omega), ?_, ?_, ?_⟩
  · intro v hv
    have := update_narrowings_lt F _ hr (by omega) v hv
    exact ⟨this, by omega⟩
  · intro h0; omega
  · intro v hv
    have := final_narrowings_lt _ hr v hv
    exact ⟨this, by omega⟩
  · intro v hv
    have := oneshot_narrowings_lt N v hv
    exact ⟨this, by omega⟩

/-- Witness of C17: a fragment of 200 bytes after the run of six calls. -/
theorem narrowings_lossless_witness :
    staleState.data.length = sc_buf_size ∧
    (fragments_of sampleOps).flatten.length + (List.replicate 200 (9 : Byte)).length < 2 ^ 64 ∧
    (∀ v ∈ update_narrowings (List.replicate 200 9)
        (run_ops sampleHeader (spookyhash_init 11 22 staleState) sampleOps).1,
      v < 192 ∧ v % 256 = v) :=
  ⟨by decide, by decide,
    (narrowings_lossless sampleHeader 11 22 staleState sampleOps (List.replicate 200 9) 1000
      (by decide) (by decide)).1⟩

/-- C18: for any two contexts (whatever their twelve state words, buffer
contents and counters before the call), `spookyhash_init` with the same seeds
followed by the same run of updates and finals (fragments totalling less than
`2 ^ 64` bytes) returns the same digests from both. -/
theorem init_resets (H : Header) (seed1 seed2 : Nat) (s0 s1 : spooky_state) (ops : List Op)
    (hwf0 : s0.data.length = sc_buf_size) (hwf1 : s1.data.length = sc_buf_size)
    (hlen : (fragments_of ops).flatten.length < 2 ^ 64) :
    (run_ops H (spookyhash_init seed1 seed2 s0) ops).2
      = (run_ops H (spookyhash_init seed1 seed2 s1) ops).2 := by
  rw [(inv_run_init H seed1 seed2 s0 ops hwf0 hlen).2,
    (inv_run_init H seed1 seed2 s1 ops hwf1 hlen).2]

/-- Witness of C18: the run of six calls from a stale context and from a
cleared one. -/
theorem init_resets_witness :
    staleState.data.length = sc_buf_size ∧ freshState.data.length = sc_buf_size ∧
    (fragments_of sampleOps).flatten.length < 2 ^ 64 ∧
    (run_ops sampleHeader (spookyhash_init 11 22 staleState) sampleOps).2
      = (run_ops sampleHeader (spookyhash_init 11 22 freshState) sampleOps).2 :=
  ⟨by decide, by decide, by decide,
    init_resets sampleHeader 11 22 staleState freshState sampleOps (by decide) (by decide)
      (by decide)⟩

end SpookyHash
